import Mathlib

/-!
Verification of the core of a small embedded relational database (a SQL
engine over a Bitcask-style log-structured key-value store).  The Lean
definitions below are a shallow embedding of the Rust sources:

  * `src/sql/executor/agg.rs`     — aggregate calculators (COUNT/SUM/MIN/MAX/AVG)
  * `src/sql/executor/join.rs`    — nested-loop and hash joins
  * `src/sql/executor/query.rs`   — scans (primary-key scan coercion)
  * `src/sql/plan/planner.rs`     — scan-rewrite rules
  * `src/sql/engine/kv.rs`        — record layer (rows + secondary indexes)
  * `src/sql/parser/ast.rs`       — expressions and their evaluation
  * `src/storage/disk.rs`         — append-only log file, KeyDir, compaction

Machine integers are modelled as `Int`/`Nat` with explicit wrapping where it
matters; IEEE-754 doubles are modelled as `ℚ` (the claims under study do not
depend on rounding); Rust `Result` is an explicit outcome type that also has
a `panic` constructor so that `unwrap`/out-of-bounds indexing can be told
apart from returned errors.
-/

namespace SqlDB

/-- Outcome of running a fallible Rust function: a returned value, a returned
`Err`, or a panic (`unwrap` on `None`, slice index out of bounds, ...). -/
inductive Outcome (ε α : Type) where
| ok (a : α)
| err (e : ε)
| panic
deriving DecidableEq, Repr

instance : Monad (Outcome ε) where
  pure a := .ok a
  bind m f := match m with
    | .ok a => f a
    | .err e => .err e
    | .panic => .panic

@[simp] theorem Outcome.bind_ok (a : α) (f : α → Outcome ε β) :
    (Outcome.ok a >>= f) = f a := rfl

@[simp] theorem Outcome.bind_err (e : ε) (f : α → Outcome ε β) :
    (Outcome.err e >>= f) = Outcome.err e := rfl

@[simp] theorem Outcome.bind_panic (f : α → Outcome ε β) :
    (Outcome.panic >>= f) = (Outcome.panic : Outcome ε β) := rfl

/-- Modelled from the spec: the value datatypes (src/sql/types.rs is not part
of the sources; §3 of the spec: DataType = Boolean, Integer, Float, String). -/
inductive DataType where
| Boolean
| Integer
| Float
| String
deriving DecidableEq, Repr

/-- Modelled from the spec: `Value` (src/sql/types.rs is not part of the
sources; §3 of the spec: tagged union of Null, Boolean, Integer (i64),
Float (f64, modelled as ℚ), String). -/
inductive Value where
| Null
| Boolean (b : Bool)
| Integer (i : Int)
| Float (f : ℚ)
| String (s : String)
deriving DecidableEq, Repr

/-- Modelled from the spec: each `Value` carries the datatype tag matching
exactly one `DataType`, except `Null` which has none (§3 of the spec). -/
def Value.datatype : Value → Option DataType
| .Null => none
| .Boolean _ => some .Boolean
| .Integer _ => some .Integer
| .Float _ => some .Float
| .String _ => some .String

/-- A row is an ordered sequence of values (`type Row = Vec<Value>`). -/
def Row := List Value
deriving DecidableEq, Repr

/-- Rust `row[i]` indexing.  The sources only index within bounds (row widths
match the schema); out-of-range access is given the default `Null` here. -/
def rowAt (row : List Value) (i : Nat) : Value := row.getD i .Null

/-- Modelled from the spec: `Value::partial_cmp` (src/sql/types.rs is not part
of the sources; §3 of the spec: total ordering within the same variant plus
mixed Integer/Float numeric comparison, `None` for every other pair). -/
def vcmp : Value → Value → Option Ordering
| .Null, .Null => some .eq
| .Boolean a, .Boolean b => some (compare a b)
| .Integer a, .Integer b => some (compare a b)
| .Integer a, .Float b => some (compare (a : ℚ) b)
| .Float a, .Integer b => some (compare a (b : ℚ))
| .Float a, .Float b => some (compare a b)
| .String a, .String b => some (compare a b)
| _, _ => none

/-- The executor's error values are plain internal messages; the claims below
only ever distinguish error from success, so a bare marker type suffices. -/
inductive EErr where
| internal (msg : String)
deriving DecidableEq, Repr

/-- How Rust finds a column: `cols.iter().position(|c| *c == *col_name)`. -/
def posOf (cols : List String) (col : String) : Option Nat :=
  cols.findIdx? (fun c => c == col)

/-- One comparison step of `sort_by(|a, b| a.partial_cmp(b).unwrap())`: an
incomparable pair panics. -/
def vcmpUnwrap (a b : Value) : Outcome EErr Ordering :=
  match vcmp a b with
  | some o => .ok o
  | none => .panic

/-- Sorted insertion using the panicking comparator (model of the library
sort used by `Min::calc` / `Max::calc`; on the inputs the claims touch no
comparison is ever executed or all values are mutually comparable, so the
choice of sorting algorithm is immaterial). -/
def vinsertSorted (x : Value) : List Value → Outcome EErr (List Value)
| [] => .ok [x]
| y :: t => do
  let o ← vcmpUnwrap x y
  match o with
  | .gt => do
    let t' ← vinsertSorted x t
    .ok (y :: t')
  | _ => .ok (x :: y :: t)

/-- Model of `values.sort_by(|a, b| a.partial_cmp(b).unwrap())`. -/
def vsort : List Value → Outcome EErr (List Value)
| [] => .ok []
| x :: t => do
  let t' ← vsort t
  vinsertSorted x t'

/-- `Consts` (src/sql/parser/ast.rs): literal constants in expressions. -/
inductive Consts where
| Null
| Boolean (b : Bool)
| Integer (i : Int)
| Float (f : ℚ)
| String (s : String)
deriving DecidableEq, Repr

mutual

/-- `Expression` (src/sql/parser/ast.rs). -/
inductive Expression where
| Field (name : String)
| Consts (c : Consts)
| Operation (op : Operation)
| Function (name : String) (colName : String)
deriving DecidableEq, Repr

/-- `Operation` (src/sql/parser/ast.rs): the three binary comparisons. -/
inductive Operation where
| Equal (l r : Expression)
| GreaterThan (l r : Expression)
| LessThan (l r : Expression)
deriving DecidableEq, Repr

end

/-- Modelled from the spec: the `Consts → Value` part of
`Value::from_expression` (src/sql/types.rs is not part of the sources; its
behaviour on constants is visible in `evaluate_expr`, src/sql/parser/ast.rs,
which maps each literal to the same-named value). -/
def valueFromConsts : Consts → Value
| .Null => .Null
| .Boolean b => .Boolean b
| .Integer i => .Integer i
| .Float f => .Float f
| .String s => .String s

/-- Comparison of two already-evaluated values under `Operation::Equal`
(src/sql/parser/ast.rs `evaluate_expr`): same-variant equality, mixed
Integer/Float numeric equality, Null short-circuits to Null, anything else
is an error. -/
def evalEqual : Value → Value → Outcome EErr Value
| .Boolean l, .Boolean r => .ok (.Boolean (l == r))
| .Integer l, .Integer r => .ok (.Boolean (l == r))
| .Integer l, .Float r => .ok (.Boolean ((l : ℚ) == r))
| .Float l, .Integer r => .ok (.Boolean (l == (r : ℚ)))
| .Float l, .Float r => .ok (.Boolean (l == r))
| .String l, .String r => .ok (.Boolean (l == r))
| .Null, _ => .ok .Null
| _, .Null => .ok .Null
| _, _ => .err (.internal "can not compare expression")

/-- Comparison under `Operation::GreaterThan` (src/sql/parser/ast.rs). -/
def evalGreaterThan : Value → Value → Outcome EErr Value
| .Boolean l, .Boolean r => .ok (.Boolean (compare l r == .gt))
| .Integer l, .Integer r => .ok (.Boolean (compare l r == .gt))
| .Integer l, .Float r => .ok (.Boolean (compare (l : ℚ) r == .gt))
| .Float l, .Integer r => .ok (.Boolean (compare l (r : ℚ) == .gt))
| .Float l, .Float r => .ok (.Boolean (compare l r == .gt))
| .String l, .String r => .ok (.Boolean (compare l r == .gt))
| .Null, _ => .ok .Null
| _, .Null => .ok .Null
| _, _ => .err (.internal "can not compare expression")

/-- Comparison under `Operation::LessThan` (src/sql/parser/ast.rs). -/
def evalLessThan : Value → Value → Outcome EErr Value
| .Boolean l, .Boolean r => .ok (.Boolean (compare l r == .lt))
| .Integer l, .Integer r => .ok (.Boolean (compare l r == .lt))
| .Integer l, .Float r => .ok (.Boolean (compare (l : ℚ) r == .lt))
| .Float l, .Integer r => .ok (.Boolean (compare l (r : ℚ) == .lt))
| .Float l, .Float r => .ok (.Boolean (compare l r == .lt))
| .String l, .String r => .ok (.Boolean (compare l r == .lt))
| .Null, _ => .ok .Null
| _, .Null => .ok .Null
| _, _ => .err (.internal "can not compare expression")

/-- `evaluate_expr` (src/sql/parser/ast.rs): a Field looks up the left row,
constants map to values, and a binary operation evaluates its left side
against the left row and its right side against the right row (the column
sides are swapped in the recursive call, exactly as in the source). -/
def evaluateExpr : Expression → List String → List Value → List String → List Value →
    Outcome EErr Value
| .Field colName, lcols, lrow, _, _ =>
  match posOf lcols colName with
  | none => .err (.internal "column is not in table")
  | some pos => .ok (rowAt lrow pos)
| .Consts c, _, _, _, _ => .ok (valueFromConsts c)
| .Operation (.Equal l r), lcols, lrow, rcols, rrow => do
  let lv ← evaluateExpr l lcols lrow rcols rrow
  let rv ← evaluateExpr r rcols rrow lcols lrow
  evalEqual lv rv
| .Operation (.GreaterThan l r), lcols, lrow, rcols, rrow => do
  let lv ← evaluateExpr l lcols lrow rcols rrow
  let rv ← evaluateExpr r rcols rrow lcols lrow
  evalGreaterThan lv rv
| .Operation (.LessThan l r), lcols, lrow, rcols, rrow => do
  let lv ← evaluateExpr l lcols lrow rcols rrow
  let rv ← evaluateExpr r rcols rrow lcols lrow
  evalLessThan lv rv
| .Function _ _, _, _, _, _ => .err (.internal "unexpected expression")

/-- `Count::calc` (src/sql/executor/agg.rs): count of non-Null values of the
named column. -/
def countCalc (colName : String) (cols : List String) (rows : List (List Value)) :
    Outcome EErr Value :=
  match posOf cols colName with
  | none => .err (.internal "column not in table")
  | some pos =>
    .ok (.Integer ((rows.filter (fun row => rowAt row pos ≠ .Null)).length : Nat))

/-- `Min::calc` (src/sql/executor/agg.rs): non-Null values are collected and
sorted; the first is the minimum; empty input yields Null. -/
def minCalc (colName : String) (cols : List String) (rows : List (List Value)) :
    Outcome EErr Value :=
  match posOf cols colName with
  | none => .err (.internal "column not in table")
  | some pos =>
    let values := (rows.map (fun row => rowAt row pos)).filter (fun v => v ≠ .Null)
    if values.isEmpty then .ok .Null
    else do
      let sorted ← vsort values
      .ok (sorted.getD 0 .Null)

/-- `Max::calc` (src/sql/executor/agg.rs): like `Min::calc` but the last
element of the sorted values. -/
def maxCalc (colName : String) (cols : List String) (rows : List (List Value)) :
    Outcome EErr Value :=
  match posOf cols colName with
  | none => .err (.internal "column not in table")
  | some pos =>
    let values := (rows.map (fun row => rowAt row pos)).filter (fun v => v ≠ .Null)
    if values.isEmpty then .ok .Null
    else do
      let sorted ← vsort values
      .ok (sorted.getD (sorted.length - 1) .Null)

/-- The fold inside `Sum::calc`: Nulls are skipped, Integers are promoted to
Float, the accumulator starts at 0.0 on the first numeric value, and any
other variant is an error. -/
def sumFold (colName : String) (pos : Nat) (acc : Option ℚ) :
    List (List Value) → Outcome EErr (Option ℚ)
| [] => .ok acc
| row :: rest =>
  match rowAt row pos with
  | .Null => sumFold colName pos acc rest
  | .Integer v => sumFold colName pos (some (acc.getD 0 + (v : ℚ))) rest
  | .Float v => sumFold colName pos (some (acc.getD 0 + v)) rest
  | _ => .err (.internal "can not calc column")

/-- `Sum::calc` (src/sql/executor/agg.rs): `None` accumulator (all-Null or
empty input) becomes Null, otherwise the Float sum. -/
def sumCalc (colName : String) (cols : List String) (rows : List (List Value)) :
    Outcome EErr Value :=
  match posOf cols colName with
  | none => .err (.internal "column not in table")
  | some pos => do
    let s ← sumFold colName pos none rows
    match s with
    | some q => .ok (.Float q)
    | none => .ok .Null

/-- `Avg::calc` (src/sql/executor/agg.rs): SUM divided by COUNT, Null unless
the sum is a Float and the count an Integer. -/
def avgCalc (colName : String) (cols : List String) (rows : List (List Value)) :
    Outcome EErr Value := do
  let s ← sumCalc colName cols rows
  let c ← countCalc colName cols rows
  match s, c with
  | .Float q, .Integer n => .ok (.Float (q / (n : ℚ)))
  | _, _ => .ok .Null

/-- ASCII upper-casing of one character (model of `str::to_uppercase`; SQL
function names are ASCII identifiers). -/
def upChar (c : Char) : Char :=
  if 97 ≤ c.toNat ∧ c.toNat ≤ 122 then Char.ofNat (c.toNat - 32) else c

/-- ASCII upper-casing of a string. -/
def upStr (s : String) : String := ⟨s.data.map upChar⟩

/-- `<dyn Calculator>::build` followed by `calc` (src/sql/executor/agg.rs):
dispatch on the upper-cased function name. -/
def calculatorCalc (funcName colName : String) (cols : List String)
    (rows : List (List Value)) : Outcome EErr Value :=
  match upStr funcName with
  | "COUNT" => countCalc colName cols rows
  | "SUM" => sumCalc colName cols rows
  | "MIN" => minCalc colName cols rows
  | "MAX" => maxCalc colName cols rows
  | "AVG" => avgCalc colName cols rows
  | _ => .err (.internal "unknown aggregate function")

/-- The `calc` closure of `Aggregate::execute` (src/sql/executor/agg.rs),
iterating the output expressions: a Function computes its aggregate; a bare
Field is rejected when a GROUP BY field is present and differs, and otherwise
pushes `col_val.unwrap()` — a panic when `col_val` is `None`; any other
expression is an error.  The accumulator carries the output column names and
the output row being built. -/
def aggCalcGo (groupBy : Option Expression) (colVal : Option Value)
    (cols : List String) (rows : List (List Value)) (exprsLen : Nat)
    (acc : List String × List Value) :
    List (Expression × Option String) → Outcome EErr (List String × List Value)
| [] => .ok acc
| (e, al) :: rest =>
  match e with
  | .Function funcName fieldName => do
    let val ← calculatorCalc funcName fieldName cols rows
    let newCols := if acc.1.length < exprsLen then acc.1 ++ [al.getD funcName] else acc.1
    aggCalcGo groupBy colVal cols rows exprsLen (newCols, acc.2 ++ [val]) rest
  | .Field colName =>
    if (match groupBy with
        | some (.Field groupCol) => colName != groupCol
        | _ => false) then
      .err (.internal "must appear in the GROUP BY clause or aggregate function")
    else
      match colVal with
      | none => .panic
      | some v =>
        aggCalcGo groupBy colVal cols rows exprsLen
          ((if acc.1.length < exprsLen then acc.1 ++ [al.getD colName] else acc.1),
            acc.2 ++ [v])
          rest
  | _ => .err (.internal "unexpected expression")

/-- The branch of `Aggregate::execute` (src/sql/executor/agg.rs) taken when
`group_by` is `None`: a single `calc(None, &rows)` call whose result is the
only output row. -/
def aggExecuteNoGroup (exprs : List (Expression × Option String))
    (cols : List String) (rows : List (List Value)) :
    Outcome EErr (List String × List (List Value)) := do
  let r ← aggCalcGo none none cols rows exprs.length ([], []) exprs
  .ok (r.1, [r.2])

/-- The inner loop of `NestedLoopJoin::execute` (src/sql/executor/join.rs)
for one left row: returns the concatenated output rows contributed by this
left row together with the `matched` flag.  Without a predicate every right
row is concatenated but `matched` is never set (exactly as in the source). -/
def nljOneLeft (lcols rcols : List String) (pred : Option Expression)
    (lrow : List Value) (matched : Bool) (acc : List (List Value)) :
    List (List Value) → Outcome EErr (List (List Value) × Bool)
| [] => .ok (acc, matched)
| rrow :: rest =>
  match pred with
  | some expr => do
    let v ← evaluateExpr expr lcols lrow rcols rrow
    match v with
    | .Null => nljOneLeft lcols rcols pred lrow matched acc rest
    | .Boolean false => nljOneLeft lcols rcols pred lrow matched acc rest
    | .Boolean true => nljOneLeft lcols rcols pred lrow true (acc ++ [lrow ++ rrow]) rest
    | _ => .err (.internal "Unexpected expression")
  | none => nljOneLeft lcols rcols pred lrow matched (acc ++ [lrow ++ rrow]) rest

/-- The outer loop of `NestedLoopJoin::execute` (src/sql/executor/join.rs):
for each left row run the inner loop; when `outer` is set and nothing
matched, pad with `rrows[0].len()` Nulls — an indexing panic when the right
input has no rows. -/
def nljGo (lcols rcols : List String) (pred : Option Expression) (outer : Bool)
    (rrows : List (List Value)) (acc : List (List Value)) :
    List (List Value) → Outcome EErr (List (List Value))
| [] => .ok acc
| lrow :: rest => do
  let r ← nljOneLeft lcols rcols pred lrow false [] rrows
  if outer ∧ ¬ r.2 then
    match rrows with
    | [] => .panic
    | r0 :: _ =>
      nljGo lcols rcols pred outer rrows (acc ++ r.1 ++ [lrow ++ List.replicate r0.length .Null]) rest
  else
    nljGo lcols rcols pred outer rrows (acc ++ r.1) rest

/-- `NestedLoopJoin::execute` (src/sql/executor/join.rs) on two tabular
inputs. -/
def nestedLoopJoinRows (lcols : List String) (lrows : List (List Value))
    (rcols : List String) (rrows : List (List Value)) (pred : Option Expression)
    (outer : Bool) : Outcome EErr (List String × List (List Value)) := do
  let r ← nljGo lcols rcols pred outer rrows [] lrows
  .ok (lcols ++ rcols, r)

/-- The expression case of `parse_join_filter` (src/sql/executor/join.rs):
a bare Field maps to `(field, "")`, an equality recurses on both sides and
`unwrap`s each result — a panic when either side parses to `None` —,
everything else is `None`. -/
def parseJoinFilterExpr : Expression → Outcome EErr (Option (String × String))
| .Field f => .ok (some (f, ""))
| .Operation (.Equal l r) => do
  let lv ← parseJoinFilterExpr l
  let rv ← parseJoinFilterExpr r
  match lv with
  | none => .panic
  | some lp =>
    match rv with
    | none => .panic
    | some rp => .ok (some (lp.1, rp.1))
| .Operation (.GreaterThan _ _) => .ok none
| .Operation (.LessThan _ _) => .ok none
| .Consts _ => .ok none
| .Function _ _ => .ok none

/-- `parse_join_filter` (src/sql/executor/join.rs) on the optional join
predicate. -/
def parseJoinFilter : Option Expression → Outcome EErr (Option (String × String))
| none => .ok none
| some e => parseJoinFilterExpr e

/-- The probe loop of `HashJoin::execute` (src/sql/executor/join.rs).  The
hash table maps a right key value to the right rows carrying it in input
order, so `table.get(&lrow[lpos])` is the order-preserving filter of the
right rows on that key (absent exactly when the filter is empty).  A probe
miss with `outer` set pads with `rrows[0].len()` Nulls — an indexing panic
when the right input has no rows. -/
def hashJoinProbe (lpos rpos : Nat) (outer : Bool) (rrows : List (List Value))
    (acc : List (List Value)) : List (List Value) → Outcome EErr (List (List Value))
| [] => .ok acc
| lrow :: rest =>
  let group := rrows.filter (fun r => rowAt r rpos == rowAt lrow lpos)
  if group.isEmpty then
    if outer then
      match rrows with
      | [] => .panic
      | r0 :: _ =>
        hashJoinProbe lpos rpos outer rrows (acc ++ [lrow ++ List.replicate r0.length .Null]) rest
    else hashJoinProbe lpos rpos outer rrows acc rest
  else hashJoinProbe lpos rpos outer rrows (acc ++ group.map (fun r => lrow ++ r)) rest

/-- `HashJoin::execute` (src/sql/executor/join.rs) on two tabular inputs:
parse the predicate into a pair of field names, locate both columns, build
the hash table on the right input and probe with the left rows. -/
def hashJoinRows (lcols : List String) (lrows : List (List Value))
    (rcols : List String) (rrows : List (List Value)) (pred : Option Expression)
    (outer : Bool) : Outcome EErr (List String × List (List Value)) := do
  let pf ← parseJoinFilter pred
  match pf with
  | none => .err (.internal "failed to parse join predicate")
  | some (lfield, rfield) =>
    match posOf lcols lfield with
    | none => .err (.internal "column not exist in table")
    | some lpos =>
      match posOf rcols rfield with
      | none => .err (.internal "column not exist in table")
      | some rpos => do
        let r ← hashJoinProbe lpos rpos outer rrows [] lrows
        .ok (lcols ++ rcols, r)

/-- `Column` (src/sql/schema.rs). -/
structure Column where
  name : String
  datatype : DataType
  nullable : Bool
  default : Option Value
  primary_key : Bool
  index : Bool
deriving DecidableEq, Repr

/-- `Table` (src/sql/schema.rs). -/
structure Table where
  name : String
  columns : List Column
deriving DecidableEq, Repr

/-- `Table::get_primary_key` (src/sql/schema.rs): position of the first
primary-key column, `expect`-panicking when the table has none. -/
def getPrimaryKey (t : Table) (row : List Value) : Outcome EErr Value :=
  match t.columns.findIdx? (fun c => c.primary_key) with
  | none => .panic
  | some pos => .ok (rowAt row pos)

/-- `Key` (src/sql/engine/kv.rs): the discriminated keys of the record layer.
The byte encoding (`serialize_key`, src/storage/keycode.rs, an order
preserving injection) is abstracted away: the store is keyed by the `Key`
values themselves. -/
inductive Key where
| Table (name : String)
| Row (table : String) (pk : Value)
| Index (table : String) (colName : String) (value : Value)
deriving DecidableEq, Repr

/-- What a record-layer key maps to.  The source stores bincode-serialized
values; serialization being injective per type, the store holds the
structured values directly, and reading a key whose payload has the wrong
shape models a deserialization failure. -/
inductive StoredVal where
| table (t : Table)
| row (r : List Value)
| indexSet (s : List Value)
deriving DecidableEq, Repr

/-- The visible state of the record layer's transaction: an association list
with map semantics (writes keep it duplicate-free). -/
abbrev Store := List (Key × StoredVal)

/-- `txn.get` on the store. -/
def sget (s : Store) (k : Key) : Option StoredVal :=
  (s.find? (fun e => e.1 == k)).map Prod.snd

/-- `txn.set` on the store (map update). -/
def sput (k : Key) (v : StoredVal) (s : Store) : Store :=
  (k, v) :: s.filter (fun e => e.1 != k)

/-- `txn.delete` on the store. -/
def sdel (k : Key) (s : Store) : Store :=
  s.filter (fun e => e.1 != k)

/-- Result of a mutating record-layer call.  A Rust transaction keeps the
writes already made when a later step fails, so the error constructor also
carries the store. -/
inductive TxnOut (α : Type) where
| ok (a : α) (s : Store)
| err (e : EErr) (s : Store)
| panic
deriving DecidableEq, Repr

/-- `Transaction::must_get_table` (src/sql/engine/mod.rs):
`get_table` then an error if absent. -/
def mustGetTable (s : Store) (tableName : String) : Outcome EErr Table :=
  match sget s (Key.Table tableName) with
  | some (.table t) => .ok t
  | some _ => .err (.internal "deserialize error")
  | none => .err (.internal "table does not exist")

/-- `HashSet::insert` on the model of `HashSet<Value>` (a duplicate-free
list; iteration order is irrelevant to the claims under study). -/
def hsInsert (v : Value) (s : List Value) : List Value :=
  if v ∈ s then s else s ++ [v]

/-- `HashSet::remove`. -/
def hsRemove (v : Value) (s : List Value) : List Value :=
  s.filter (fun x => x != v)

/-- `KVTransaction::load_index` (src/sql/engine/kv.rs): the stored primary
key set for `(table, column, value)`, defaulting to the empty set. -/
def loadIndex (s : Store) (tableName colName : String) (colValue : Value) :
    Outcome EErr (List Value) :=
  match sget s (Key.Index tableName colName colValue) with
  | none => .ok []
  | some (.indexSet st) => .ok st
  | some _ => .err (.internal "deserialize error")

/-- `KVTransaction::save_index` (src/sql/engine/kv.rs): an empty set deletes
the index key, a non-empty one overwrites it. -/
def saveIndex (s : Store) (tableName colName : String) (colValue : Value)
    (st : List Value) : Store :=
  if st.isEmpty then sdel (Key.Index tableName colName colValue) s
  else sput (Key.Index tableName colName colValue) (.indexSet st) s

/-- `KVTransaction::read_by_id` (src/sql/engine/kv.rs). -/
def readById (s : Store) (tableName : String) (id : Value) :
    Outcome EErr (Option (List Value)) :=
  match sget s (Key.Row tableName id) with
  | none => .ok none
  | some (.row r) => .ok (some r)
  | some _ => .err (.internal "deserialize error")

/-- The row-validation loop of `KVTransaction::create_row`
(src/sql/engine/kv.rs): per column, Null needs `nullable` and a non-Null
value must match the column's datatype; the first offending column's error
is returned. -/
def validateRowGo (row : List Value) (i : Nat) : List Column → Option EErr
| [] => none
| col :: rest =>
  match (rowAt row i).datatype with
  | none => if col.nullable then validateRowGo row (i + 1) rest
            else some (.internal "column cannot be null")
  | some dt => if dt ≠ col.datatype then some (.internal "column type mismatch")
               else validateRowGo row (i + 1) rest

/-- The indexed columns of a table with their positions:
`columns.iter().enumerate().filter(|(_, c)| c.index)`. -/
def indexColsOf (t : Table) : List (Nat × Column) :=
  t.columns.enum.filter (fun ic => ic.2.index)

/-- The table metadata stored under `Key::Table(tn)`, if any well-shaped one
is there (`get_table` modulo deserialization). -/
def tableAt (s : Store) (tn : String) : Option Table :=
  match sget s (Key.Table tn) with
  | some (.table t) => some t
  | _ => none

/-- The row stored under `Key::Row(tn, pk)`, if any well-shaped one is there
(`read_by_id` modulo deserialization). -/
def rowAtStore (s : Store) (tn : String) (pk : Value) : Option (List Value) :=
  match sget s (Key.Row tn pk) with
  | some (.row r) => some r
  | _ => none

/-- The primary-key set stored under `Key::Index(tn, cn, v)`, defaulting to
the empty set (the total version of `load_index`; on well-shaped stores the
two agree). -/
def loadSet (s : Store) (tn cn : String) (v : Value) : List Value :=
  match sget s (Key.Index tn cn v) with
  | some (.indexSet st) => st
  | _ => []

/-- A store entry is well shaped when its payload matches its key kind (what
bincode deserialization succeeds on). -/
def wfShaped : Key × StoredVal → Bool
| (.Table _, .table _) => true
| (.Row _ _, .row _) => true
| (.Index _ _ _, .indexSet _) => true
| _ => false

/-- A well-formed store: every entry is well shaped, and keys are not
duplicated (the store is a map). -/
def WfStore (s : Store) : Prop :=
  s.all wfShaped = true ∧ (s.map Prod.fst).Nodup

/-- The first part of the record-layer invariant, checked at one `Row`
entry: for every indexed column of the row's table, the row's primary key is
a member of the index set at the row's column value. -/
def invP1e (s : Store) (e : Key × StoredVal) : Bool :=
  match e with
  | (.Row tn pk, .row r) =>
    match tableAt s tn with
    | some tb =>
      (indexColsOf tb).all (fun ic => (loadSet s tn ic.2.name (rowAt r ic.1)).contains pk)
    | none => true
  | _ => true

/-- The second part of the record-layer invariant, checked at one `Index`
entry: every member of the set is the primary key of a stored row that has
the set's value at an indexed column with the set's column name. -/
def invP2e (s : Store) (e : Key × StoredVal) : Bool :=
  match e with
  | (.Index tn cn v, .indexSet st) =>
    st.all (fun pk =>
      match rowAtStore s tn pk, tableAt s tn with
      | some r, some tb =>
        (indexColsOf tb).any (fun ic => ic.2.name == cn && rowAt r ic.1 == v)
      | _, _ => false)
  | _ => true

/-- The third part of the record-layer invariant, checked at one `Index`
entry: no empty index set is persisted. -/
def invP3e : Key × StoredVal → Bool
| (.Index _ _ _, .indexSet st) => !st.isEmpty
| _ => true

/-- The record-layer secondary-index invariant of spec §4.5 as a decidable
check over the store's entries. -/
def Inv (s : Store) : Bool :=
  s.all (fun e => invP1e s e && invP2e s e && invP3e e)

/-- Part 1 of the invariant at the level of the lookup functions. -/
def P1acc (s : Store) : Prop :=
  ∀ tn pk r tb, rowAtStore s tn pk = some r → tableAt s tn = some tb →
    ∀ ic ∈ indexColsOf tb, pk ∈ loadSet s tn ic.2.name (rowAt r ic.1)

/-- Part 2 of the invariant at the level of the lookup functions. -/
def P2acc (s : Store) : Prop :=
  ∀ tn cn v pk, pk ∈ loadSet s tn cn v →
    ∃ r tb ic, rowAtStore s tn pk = some r ∧ tableAt s tn = some tb ∧
      ic ∈ indexColsOf tb ∧ ic.2.name = cn ∧ rowAt r ic.1 = v

/-- Part 3 of the invariant at the level of the lookup functions: a stored
`Index` key always holds a non-empty set. -/
def P3acc (s : Store) : Prop :=
  ∀ tn cn v, (sget s (Key.Index tn cn v)).isSome → loadSet s tn cn v ≠ []

/-- The index-maintenance loop of `KVTransaction::create_row`
(src/sql/engine/kv.rs): per indexed column, load the set for the row's
value, insert the new primary key, save the set back. -/
def createRowIndexes (tableName : String) (pk : Value) (row : List Value)
    (s : Store) : List (Nat × Column) → TxnOut Unit
| [] => .ok () s
| (i, col) :: rest =>
  match loadIndex s tableName col.name (rowAt row i) with
  | .err e => .err e s
  | .panic => .panic
  | .ok st =>
    createRowIndexes tableName pk row
      (saveIndex s tableName col.name (rowAt row i) (hsInsert pk st)) rest

/-- `KVTransaction::create_row` (src/sql/engine/kv.rs): fetch the table,
validate the row, extract the primary key, reject a duplicate `Row` key,
write the row, then maintain every secondary index. -/
def createRow (s : Store) (tableName : String) (row : List Value) : TxnOut Unit :=
  match mustGetTable s tableName with
  | .err e => .err e s
  | .panic => .panic
  | .ok table =>
    match validateRowGo row 0 table.columns with
    | some e => .err e s
    | none =>
      match getPrimaryKey table row with
      | .err e => .err e s
      | .panic => .panic
      | .ok pk =>
        if (sget s (Key.Row tableName pk)).isSome then
          .err (.internal "Duplicate data for primary key") s
        else
          createRowIndexes tableName pk row
            (sput (Key.Row tableName pk) (.row row) s) (indexColsOf table)

/-- The index-maintenance loop of `KVTransaction::delete_row`
(src/sql/engine/kv.rs): per indexed column, re-read the row (if still
present), remove the primary key from the value's set, save it back. -/
def deleteRowIndexes (t : Table) (pid : Value) (s : Store) :
    List (Nat × Column) → TxnOut Unit
| [] => .ok () s
| (i, col) :: rest =>
  match readById s t.name pid with
  | .err e => .err e s
  | .panic => .panic
  | .ok none => deleteRowIndexes t pid s rest
  | .ok (some row) =>
    match loadIndex s t.name col.name (rowAt row i) with
    | .err e => .err e s
    | .panic => .panic
    | .ok st =>
      deleteRowIndexes t pid
        (saveIndex s t.name col.name (rowAt row i) (hsRemove pid st)) rest

/-- `KVTransaction::delete_row` (src/sql/engine/kv.rs): maintain the indexes,
then delete the `Row` key. -/
def deleteRow (s : Store) (t : Table) (pid : Value) : TxnOut Unit :=
  match deleteRowIndexes t pid s (indexColsOf t) with
  | .err e s' => .err e s'
  | .panic => .panic
  | .ok _ s' => .ok () (sdel (Key.Row t.name pid) s')

/-- The index-maintenance loop of `KVTransaction::update_row`
(src/sql/engine/kv.rs), for the unchanged-primary-key case: per indexed
column whose value changed, move the primary key from the old value's set to
the new value's set. -/
def updateRowIndexes (t : Table) (pid : Value) (row : List Value) (s : Store) :
    List (Nat × Column) → TxnOut Unit
| [] => .ok () s
| (i, col) :: rest =>
  match readById s t.name pid with
  | .err e => .err e s
  | .panic => .panic
  | .ok none => updateRowIndexes t pid row s rest
  | .ok (some oldRow) =>
    if rowAt oldRow i = rowAt row i then updateRowIndexes t pid row s rest
    else
      match loadIndex s t.name col.name (rowAt oldRow i) with
      | .err e => .err e s
      | .panic => .panic
      | .ok oldSet =>
        let s1 := saveIndex s t.name col.name (rowAt oldRow i) (hsRemove pid oldSet)
        match loadIndex s1 t.name col.name (rowAt row i) with
        | .err e => .err e s1
        | .panic => .panic
        | .ok newSet =>
          updateRowIndexes t pid row
            (saveIndex s1 t.name col.name (rowAt row i) (hsInsert pid newSet)) rest

/-- `KVTransaction::update_row` (src/sql/engine/kv.rs): a changed primary key
becomes delete-then-create; otherwise the indexes of changed columns are
moved and the row is rewritten under the same key. -/
def updateRow (s : Store) (t : Table) (pid : Value) (row : List Value) : TxnOut Unit :=
  match getPrimaryKey t row with
  | .err e => .err e s
  | .panic => .panic
  | .ok newPk =>
    if pid ≠ newPk then
      match deleteRow s t pid with
      | .err e s' => .err e s'
      | .panic => .panic
      | .ok _ s' => createRow s' t.name row
    else
      match updateRowIndexes t pid row s (indexColsOf t) with
      | .err e s' => .err e s'
      | .panic => .panic
      | .ok _ s' => .ok () (sput (Key.Row t.name newPk) (.row row) s')

/-- Rust truncation of a double toward zero (the integer part used by both
`f64::fract` and the `as` cast). -/
def ratTrunc (q : ℚ) : Int := if 0 ≤ q then ⌊q⌋ else ⌈q⌉

/-- `f64::fract`: `self - self.trunc()`. -/
def ratFract (q : ℚ) : ℚ := q - ratTrunc q

/-- The Rust cast `v as i64` on a double: truncation toward zero, saturating
at the i64 bounds. -/
def f64AsI64 (q : ℚ) : Int :=
  if ratTrunc q < -(2 ^ 63) then -(2 ^ 63)
  else if ratTrunc q > 2 ^ 63 - 1 then 2 ^ 63 - 1
  else ratTrunc q

/-- The lookup-key computation of `PrimaryKeyScan::execute`
(src/sql/executor/query.rs): a Float literal with zero fractional part is
replaced by `Integer(v as i64)`; every other literal is used unchanged. -/
def pkScanId (v : Value) : Value :=
  match v with
  | .Float f => if ratFract f = 0 then .Integer (f64AsI64 f) else v
  | _ => v

/-- `PrimaryKeyScan::execute` (src/sql/executor/query.rs): fetch the table,
coerce the literal, do one `read_by_id`, and return the (zero- or one-row)
result with the table's column names. -/
def pkScanExecute (s : Store) (tableName : String) (v : Value) :
    Outcome EErr (List String × List (List Value)) := do
  let t ← mustGetTable s tableName
  let r ← readById s tableName (pkScanId v)
  .ok (t.columns.map (fun c => c.name), r.toList)

/-- The plan nodes produced by `Planner::build_scan`
(src/sql/plan/planner.rs). -/
inductive Node where
| Scan (tableName : String) (filter : Option Expression)
| IndexScan (tableName : String) (field : String) (value : Value)
| PrimaryKeyScan (tableName : String) (value : Value)
deriving DecidableEq, Repr

/-- The expression case of `Planner::parse_scan_filter`
(src/sql/plan/planner.rs): a Field yields `(field, Null)`, a constant yields
`("", value)`, an equality recurses and takes the left side's field and the
right side's value, `unwrap`-panicking when a side yields `None`; any other
shape yields `None`. -/
def parseScanFilterExpr : Expression → Outcome EErr (Option (String × Value))
| .Field f => .ok (some (f, .Null))
| .Consts c => .ok (some ("", valueFromConsts c))
| .Operation (.Equal l r) => do
  let lv ← parseScanFilterExpr l
  let rv ← parseScanFilterExpr r
  match lv with
  | none => .panic
  | some lp =>
    match rv with
    | none => .panic
    | some rp => .ok (some (lp.1, rp.2))
| .Operation (.GreaterThan _ _) => .ok none
| .Operation (.LessThan _ _) => .ok none
| .Function _ _ => .ok none

/-- `Planner::parse_scan_filter` (src/sql/plan/planner.rs) on the optional
WHERE clause. -/
def parseScanFilter : Option Expression → Outcome EErr (Option (String × Value))
| none => .ok none
| some e => parseScanFilterExpr e

/-- `Planner::build_scan` (src/sql/plan/planner.rs): when the filter parses
to a `(field, value)` pair, a primary-key field gives `PrimaryKeyScan`, an
indexed field gives `IndexScan`, anything else a plain `Scan`. -/
def buildScan (s : Store) (tableName : String) (filter : Option Expression) :
    Outcome EErr Node := do
  let pf ← parseScanFilter filter
  match pf with
  | none => .ok (.Scan tableName filter)
  | some (field, value) => do
    let t ← mustGetTable s tableName
    if (t.columns.findIdx? (fun c => c.name == field && c.primary_key)).isSome then
      .ok (.PrimaryKeyScan tableName value)
    else
      match t.columns.findIdx? (fun c => c.name == field && c.index) with
      | some _ => .ok (.IndexScan tableName field value)
      | none => .ok (.Scan tableName filter)

/-- A concrete one-column table (primary key `a`) used to instantiate
theorems with hypotheses. -/
def uTable : Table := ⟨"u", [⟨"a", .Integer, false, none, true, false⟩]⟩

/-- A store holding just the metadata of `uTable`. -/
def uStore : Store := [(Key.Table "u", StoredVal.table uTable)]

/-- A concrete three-column table: primary key `a`, indexed column `b`,
plain column `c`. -/
def tTable3 : Table :=
  ⟨"t", [⟨"a", .Integer, false, none, true, false⟩,
         ⟨"b", .Integer, true, none, false, true⟩,
         ⟨"c", .Integer, true, none, false, false⟩]⟩

/-- A store holding just the metadata of `tTable3`. -/
def tStore3 : Store := [(Key.Table "t", StoredVal.table tTable3)]

/-- A concrete two-column table with an indexed second column, for
instantiating the record-layer invariant theorems. -/
def tIdxTable : Table :=
  ⟨"t", [⟨"a", .Integer, false, none, true, false⟩,
         ⟨"b", .String, true, none, false, true⟩]⟩

/-- A store holding just the metadata of `tIdxTable`. -/
def tIdxStore : Store := [(Key.Table "t", StoredVal.table tIdxTable)]

/-- A store holding `tIdxTable`, one row, and that row's index entry — a
state satisfying the record-layer invariant. -/
def tIdxStore2 : Store :=
  [(Key.Table "t", StoredVal.table tIdxTable),
   (Key.Row "t" (.Integer 1), StoredVal.row [.Integer 1, .String "x"]),
   (Key.Index "t" "b" (.String "x"), StoredVal.indexSet [.Integer 1])]

/-- The in-memory key directory of the disk engine
(src/storage/disk.rs `KeyDir = BTreeMap<Vec<u8>, (u64, u32)>`): an
association list kept sorted by key bytes, mapping a key to the file offset
of its value and the value's length.  Bytes are modelled as `Nat` (the
sources never inspect individual byte values beyond the encoded headers). -/
abbrev KeyDir := List (List Nat × Nat × Nat)

/-- Byte-wise lexicographic strict order on keys (the `Ord` of `Vec<u8>`). -/
def bytesLt : List Nat → List Nat → Bool
| [], [] => false
| [], _ :: _ => true
| _ :: _, [] => false
| x :: xs, y :: ys => if x < y then true else if y < x then false else bytesLt xs ys

/-- `BTreeMap::insert`: sorted insertion, replacing an equal key. -/
def kdInsert (k : List Nat) (e : Nat × Nat) : KeyDir → KeyDir
| [] => [(k, e)]
| (k', e') :: t =>
  if bytesLt k k' then (k, e) :: (k', e') :: t
  else if k = k' then (k, e) :: t
  else (k', e') :: kdInsert k e t

/-- `BTreeMap::remove` (keys are unique, so filtering is removal). -/
def kdRemove (k : List Nat) (kd : KeyDir) : KeyDir :=
  kd.filter (fun e => e.1 ≠ k)

/-- `LOG_HEADER_SIZE`: 4 bytes of key length plus 4 bytes of value length. -/
def logHeaderSize : Nat := 8

/-- Big-endian bytes of a u32. -/
def be32 (n : Nat) : List Nat :=
  [n / 2 ^ 24 % 256, n / 2 ^ 16 % 256, n / 2 ^ 8 % 256, n % 256]

/-- `u32::from_be_bytes` on a four-byte slice. -/
def dec32L : List Nat → Nat
| [a, b, c, d] => a * 2 ^ 24 + b * 2 ^ 16 + c * 2 ^ 8 + d
| _ => 0

/-- `value.map_or(0, |v| v.len())`: the value length written in a record. -/
def valLenOf (value : Option (List Nat)) : Nat := (value.getD []).length

/-- The bytes of the `val_len` header field:
`value.map_or(-1, |v| v.len() as i32).to_be_bytes()` — a tombstone is the
two's-complement encoding of -1. -/
def encValLen : Option (List Nat) → List Nat
| none => be32 (2 ^ 32 - 1)
| some v => be32 (v.length % 2 ^ 32)

/-- The bytes `Log::write_entry` appends for one record: key length, value
length, key bytes, value bytes. -/
def encEntry (key : List Nat) (value : Option (List Nat)) : List Nat :=
  be32 (key.length % 2 ^ 32) ++ encValLen value ++ key ++ value.getD []

/-- One log record, at the granularity the log file is always written. -/
structure LogRec where
  key : List Nat
  value : Option (List Nat)
deriving DecidableEq, Repr

/-- The bytes of one record. -/
def encRec (r : LogRec) : List Nat := encEntry r.key r.value

/-- The size in bytes of one record
(`key_size + val_size + LOG_HEADER_SIZE`). -/
def recSize (r : LogRec) : Nat := r.key.length + valLenOf r.value + logHeaderSize

/-- The byte image of a record sequence. -/
def encRecs : List LogRec → List Nat
| [] => []
| r :: t => encRec r ++ encRecs t

/-- A record the i32/u32 header fields represent exactly. -/
def recWf (r : LogRec) : Prop :=
  r.key.length < 2 ^ 31 ∧ ∀ v, r.value = some v → v.length < 2 ^ 31

/-- The engine state: the log file bytes and the in-memory KeyDir
(src/storage/disk.rs `DiskEngine`). -/
structure DiskState where
  file : List Nat
  keydir : KeyDir
deriving DecidableEq, Repr

/-- A fresh engine over an empty log file. -/
def emptyDisk : DiskState := ⟨[], []⟩

/-- `Log::write_entry` (src/storage/disk.rs): append one record at end of
file; returns the new file, the record's offset and its total size. -/
def writeEntry (file : List Nat) (key : List Nat) (value : Option (List Nat)) :
    List Nat × Nat × Nat :=
  (file ++ encEntry key value, file.length, key.length + valLenOf value + logHeaderSize)

/-- `DiskEngine::set` (src/storage/disk.rs): append a write record, then
point the KeyDir at the value bytes
(`offset + size - val_size` is the value's offset). -/
def dsSet (s : DiskState) (key value : List Nat) : DiskState :=
  let w := writeEntry s.file key (some value)
  { file := w.1,
    keydir := kdInsert key (w.2.1 + w.2.2 - value.length, value.length) s.keydir }

/-- `DiskEngine::delete` (src/storage/disk.rs): append a tombstone record,
remove the key from the KeyDir. -/
def dsDelete (s : DiskState) (key : List Nat) : DiskState :=
  let w := writeEntry s.file key none
  { file := w.1, keydir := kdRemove key s.keydir }

/-- `Log::read_value` modelled totally: the `val_size` bytes at `offset`
(on the states the claims quantify over, reads are always in range). -/
def readValue (file : List Nat) (off len : Nat) : List Nat :=
  (file.drop off).take len

/-- `Log::read_value` with the `read_exact` failure made explicit. -/
def readValueE (file : List Nat) (off len : Nat) : Outcome EErr (List Nat) :=
  if off + len ≤ file.length then .ok ((file.drop off).take len)
  else .err (.internal "failed to fill whole buffer")

/-- The loop of `Log::build_keydir` (src/storage/disk.rs): starting at
offset 0, read each record header and key; a `val_len` of -1 removes the key
from the KeyDir, otherwise the key maps to
`(offset + LOG_HEADER_SIZE + key_size, val_size)`; stop at end of file.  The
fuel argument only bounds the recursion; every record is at least 8 bytes,
so `file.length + 1` steps always suffice. -/
def buildKeydirGo (file : List Nat) : Nat → Nat → KeyDir → Outcome EErr KeyDir
| 0, _, _ => .err (.internal "out of fuel")
| fuel + 1, offset, kd =>
  if offset ≥ file.length then .ok kd
  else if offset + 8 > file.length then .err (.internal "failed to fill whole buffer")
  else
    let ksz := dec32L ((file.drop offset).take 4)
    let vn := dec32L ((file.drop (offset + 4)).take 4)
    if offset + 8 + ksz > file.length then .err (.internal "failed to fill whole buffer")
    else
      let key := (file.drop (offset + 8)).take ksz
      if vn = 2 ^ 32 - 1 then
        buildKeydirGo file fuel (offset + ksz + logHeaderSize) (kdRemove key kd)
      else
        buildKeydirGo file fuel (offset + ksz + vn + logHeaderSize)
          (kdInsert key (offset + logHeaderSize + ksz, vn) kd)

/-- `Log::build_keydir` (src/storage/disk.rs). -/
def buildKeydir (file : List Nat) : Outcome EErr KeyDir :=
  buildKeydirGo file (file.length + 1) 0 []

/-- A `set` or `delete` call on the engine. -/
inductive DiskOp where
| set (key value : List Nat)
| del (key : List Nat)
deriving DecidableEq, Repr

/-- Run one operation. -/
def applyOp (s : DiskState) : DiskOp → DiskState
| .set k v => dsSet s k v
| .del k => dsDelete s k

/-- Run a sequence of operations. -/
def applyOps (s : DiskState) (ops : List DiskOp) : DiskState :=
  ops.foldl applyOp s

/-- An operation whose key and value fit the u32/i32 record header fields. -/
def opWf : DiskOp → Prop
| .set k v => k.length < 2 ^ 31 ∧ v.length < 2 ^ 31
| .del k => k.length < 2 ^ 31

/-- The record a `set`/`delete` call appends to the log. -/
def recOfOp : DiskOp → LogRec
| .set k v => ⟨k, some v⟩
| .del k => ⟨k, none⟩

/-- The KeyDir effect of one record found at `off` in the file (shared shape
of the `build_keydir` loop body and of `set`/`delete`). -/
def applyRecKd (off : Nat) (r : LogRec) (kd : KeyDir) : KeyDir :=
  match r.value with
  | none => kdRemove r.key kd
  | some v => kdInsert r.key (off + logHeaderSize + r.key.length, v.length) kd

/-- The KeyDir effect of a record sequence laid out from `off`. -/
def applyRecsKd (off : Nat) (kd : KeyDir) : List LogRec → KeyDir
| [] => kd
| r :: t => applyRecsKd (off + recSize r) (applyRecKd off r kd) t

/-- The loop of `DiskEngine::compact` (src/storage/disk.rs): for each KeyDir
entry in ascending key order, read the live value from the old file, append
a write record to the new file, and record the value's new offset (with the
old `val_size`) in the new KeyDir. -/
def compactGo (oldFile : List Nat) (newFile : List Nat) (newKd : KeyDir) :
    KeyDir → Outcome EErr (List Nat × KeyDir)
| [] => .ok (newFile, newKd)
| (key, off, sz) :: rest =>
  match readValueE oldFile off sz with
  | .err e => .err e
  | .panic => .panic
  | .ok v =>
    let w := writeEntry newFile key (some v)
    compactGo oldFile w.1 (kdInsert key (w.2.1 + w.2.2 - sz, sz) newKd) rest

/-- `DiskEngine::compact` (src/storage/disk.rs): rewrite one live record per
key into a fresh sibling file, atomically rename it over the log, and swap
in the freshly computed KeyDir. -/
def dsCompact (s : DiskState) : Outcome EErr DiskState :=
  match compactGo s.file [] [] s.keydir with
  | .err e => .err e
  | .panic => .panic
  | .ok r => .ok ⟨r.1, r.2⟩

/-- A full-range `scan` (src/storage/disk.rs): iterate the KeyDir in key
order, reading each entry's value from the file. -/
def scanAll (s : DiskState) : List (List Nat × List Nat) :=
  s.keydir.map (fun e => (e.1, readValue s.file e.2.1 e.2.2))

/-- Well-formedness of a reachable engine state: the KeyDir is strictly
sorted by key bytes, and every entry points at an in-range value slice with
header-representable sizes. -/
def DiskWf (s : DiskState) : Prop :=
  s.keydir.Pairwise (fun a b => bytesLt a.1 b.1 = true) ∧
  ∀ e ∈ s.keydir, e.2.1 + e.2.2 ≤ s.file.length ∧ e.2.2 < 2 ^ 31 ∧ e.1.length < 2 ^ 31

/-- The shape of the KeyDir that compaction rebuilds: one entry per input
entry, in input order, each value re-laid out contiguously from `off`
(a proof-side abstraction of the `compactGo` output, compared below with the
KeyDir the code computes). -/
def cMapped : Nat → KeyDir → KeyDir
| _, [] => []
| off, (k, _, sz) :: t =>
  (k, (off + logHeaderSize + k.length, sz)) ::
    cMapped (off + (k.length + sz + logHeaderSize)) t

/-- Claim C7: for every column name present in the input schema, evaluating
the aggregates over zero input rows yields COUNT = Integer 0, SUM = Null,
MIN = Null, MAX = Null and AVG = Null. -/
theorem agg_empty_input (colName : String) (cols : List String)
    (h : colName ∈ cols) :
    countCalc colName cols [] = .ok (.Integer 0) ∧
    sumCalc colName cols [] = .ok .Null ∧
    minCalc colName cols [] = .ok .Null ∧
    maxCalc colName cols [] = .ok .Null ∧
    avgCalc colName cols [] = .ok .Null := by
  have hsome : (cols.findIdx? (fun c => c == colName)).isSome := by
    rw [List.findIdx?_isSome]
    exact List.any_eq_true.mpr ⟨colName, h, by simp⟩
  rcases Option.isSome_iff_exists.mp hsome with ⟨p, hp⟩
  have hp : posOf cols colName = some p := hp
  refine ⟨?_, ?_, ?_, ?_, ?_⟩ <;>
    simp [countCalc, sumCalc, minCalc, maxCalc, avgCalc, sumFold, hp, List.filter,
      Outcome.bind_ok, bind, List.isEmpty]

/-- Claim C7 witness: the empty-input aggregate boundary evaluated at a
concrete one-column schema. -/
theorem agg_empty_input_witness :
    countCalc "a" ["a"] [] = .ok (.Integer 0) ∧
    sumCalc "a" ["a"] [] = .ok .Null ∧
    minCalc "a" ["a"] [] = .ok .Null ∧
    maxCalc "a" ["a"] [] = .ok .Null ∧
    avgCalc "a" ["a"] [] = .ok .Null :=
  agg_empty_input "a" ["a"] (by decide)

/-- Helper: when the `calc` closure runs with no GROUP BY field and no group
value, reaching the end successfully forces every traversed output
expression to be a Function call (a Field panics on `col_val.unwrap()`, the
rest error out). -/
theorem aggCalcGo_none_ok_functions
    (exprs : List (Expression × Option String)) :
    ∀ (cols : List String) (rows : List (List Value)) (n : Nat)
      (acc : List String × List Value) (r : List String × List Value),
      aggCalcGo none none cols rows n acc exprs = .ok r →
      ∀ ea ∈ exprs, ∃ f c, ea.1 = Expression.Function f c := by
  induction exprs with
  | nil => intro _ _ _ _ _ _ ea hea; cases hea
  | cons hd tl ih =>
    intro cols rows n acc r hok ea hea
    obtain ⟨e, al⟩ := hd
    rw [List.mem_cons] at hea
    cases e with
    | Function f c =>
      rcases hea with rfl | hea
      · exact ⟨f, c, rfl⟩
      · cases hcalc : calculatorCalc f c cols rows with
        | ok v =>
          simp only [aggCalcGo, hcalc, Outcome.bind_ok, bind] at hok
          exact ih cols rows n _ r hok ea hea
        | err e => simp [aggCalcGo, hcalc, bind] at hok
        | panic => simp [aggCalcGo, hcalc, bind] at hok
    | Field colName => simp [aggCalcGo, bind] at hok
    | Consts c => simp [aggCalcGo] at hok
    | Operation op => simp [aggCalcGo] at hok

/-- Claim C10: with `group_by = None`, `Aggregate::execute` returns a result
set only if every output expression is a Function call; a bare Field
expression alongside aggregates (e.g. `SELECT b, min(c) FROM t`) makes
execution unwrap a `None` group value and panic rather than return an
error. -/
theorem aggregate_no_group_field_panics :
    (∀ (exprs : List (Expression × Option String)) (cols : List String)
        (rows : List (List Value)) (res : List String × List (List Value)),
      aggExecuteNoGroup exprs cols rows = .ok res →
      ∀ ea ∈ exprs, ∃ f c, ea.1 = Expression.Function f c) ∧
    aggExecuteNoGroup [(.Field "b", none), (.Function "min" "c", none)]
      ["b", "c"] [] = .panic := by
  constructor
  · intro exprs cols rows res hok ea hea
    cases hgo : aggCalcGo none none cols rows exprs.length ([], []) exprs with
    | ok r => exact aggCalcGo_none_ok_functions exprs cols rows _ _ r hgo ea hea
    | err e => simp [aggExecuteNoGroup, hgo, bind] at hok
    | panic => simp [aggExecuteNoGroup, hgo, bind] at hok
  · rfl

/-- Claim C10 witness: a pure-aggregate expression list succeeds with no
GROUP BY, and the theorem then certifies that all its expressions are
Function calls. -/
theorem aggregate_no_group_field_panics_witness :
    ∀ ea ∈ [(Expression.Function "count" "a", (none : Option String))],
      ∃ f c, ea.1 = Expression.Function f c :=
  aggregate_no_group_field_panics.1 [(.Function "count" "a", none)] ["a"] []
    (["count"], [[.Integer 0]]) rfl

/-- Claim C6: FALSIFIED on the right-input-with-zero-rows case.  An outer
join whose right input has no rows reaches the Null-padding branch, which
reads `rrows[0].len()` and panics on the empty row vector instead of
emitting the Null-padded left row; this holds for both `NestedLoopJoin` and
`HashJoin`. -/
theorem outer_join_empty_right_panics :
    nestedLoopJoinRows ["a"] [[.Integer 1]] ["b"] []
      (some (.Operation (.Equal (.Field "a") (.Field "b")))) true = .panic ∧
    hashJoinRows ["a"] [[.Integer 1]] ["b"] []
      (some (.Operation (.Equal (.Field "a") (.Field "b")))) true = .panic :=
  ⟨rfl, rfl⟩

/-- Claim C8: FALSIFIED on the equality-against-a-constant case.  A HashJoin
predicate `a = 1` — an equality that is not `Field = Field` — makes
`parse_join_filter` call `unwrap()` on the `None` parse of the constant
side, so execution panics instead of returning the join-predicate error. -/
theorem hash_join_const_predicate_panics :
    hashJoinRows ["a"] [[.Integer 1]] ["b"] [[.Integer 1]]
      (some (.Operation (.Equal (.Field "a") (.Consts (.Integer 1))))) false = .panic :=
  rfl

/-- Helper: truncation of an integer-valued rational is the integer itself. -/
theorem ratTrunc_intCast (n : Int) : ratTrunc ((n : ℚ)) = n := by
  unfold ratTrunc
  split
  · exact_mod_cast Int.floor_intCast n
  · exact_mod_cast Int.ceil_intCast n

/-- Helper: an integer-valued rational has zero fractional part. -/
theorem ratFract_intCast (n : Int) : ratFract ((n : ℚ)) = 0 := by
  unfold ratFract
  rw [ratTrunc_intCast]
  ring

/-- Claim C9 counterexample: at the literal `Float(2^100)` — an f64 with zero
fractional part, exactly representable — the lookup key is the saturated
`Integer(i64::MAX)`, not the corresponding integer 2^100. -/
theorem pk_scan_saturation_counterexample :
    ratFract ((2 : ℚ) ^ 100) = 0 ∧
    pkScanId (.Float ((2 : ℚ) ^ 100)) = .Integer (2 ^ 63 - 1) ∧
    pkScanId (.Float ((2 : ℚ) ^ 100)) ≠ .Integer (2 ^ 100) := by
  have hcast : ((2 : ℚ) ^ 100) = (((2 ^ 100 : Int) : ℚ)) := by push_cast; ring
  have hfr : ratFract ((2 : ℚ) ^ 100) = 0 := by rw [hcast]; exact ratFract_intCast _
  have htr : ratTrunc ((2 : ℚ) ^ 100) = 2 ^ 100 := by rw [hcast]; exact ratTrunc_intCast _
  refine ⟨hfr, ?_, ?_⟩
  · simp only [pkScanId, hfr, if_pos rfl, f64AsI64, htr]
    norm_num
  · simp only [pkScanId, hfr, if_pos rfl, f64AsI64, htr]
    norm_num

/-- Claim C9 (amended): `PrimaryKeyScan` performs a single `read_by_id`; a
Float literal with zero fractional part is looked up as `Integer(v as i64)`,
which is the corresponding Integer whenever the value is within the i64
range (outside it the cast saturates); any other literal is looked up
unchanged. -/
theorem pk_scan_coercion :
    (∀ n : Int, -(2 ^ 63) ≤ n → n ≤ 2 ^ 63 - 1 →
      pkScanId (.Float ((n : ℚ))) = .Integer n) ∧
    (∀ q : ℚ, ratFract q ≠ 0 → pkScanId (.Float q) = .Float q) ∧
    (∀ v : Value, (∀ q, v ≠ .Float q) → pkScanId v = v) ∧
    (∀ (s : Store) (tn : String) (v : Value) (t : Table),
      mustGetTable s tn = .ok t →
      pkScanExecute s tn v =
        (readById s tn (pkScanId v) >>=
          fun r => .ok (t.columns.map (fun c => c.name), r.toList))) := by
  refine ⟨?_, ?_, ?_, ?_⟩
  · intro n hlo hhi
    have hfr := ratFract_intCast n
    have htr := ratTrunc_intCast n
    simp only [pkScanId]
    rw [if_pos hfr]
    unfold f64AsI64
    rw [htr]
    rw [if_neg (by omega), if_neg (by omega)]
  · intro q hq
    simp only [pkScanId, if_neg hq]
  · intro v hv
    cases v with
    | Float q => exact absurd rfl (hv q)
    | Null => rfl
    | Boolean b => rfl
    | Integer i => rfl
    | String s => rfl
  · intro s tn v t hget
    simp only [pkScanExecute, hget, Outcome.bind_ok, bind]

/-- Claim C9 witness: the coercion behaviour evaluated at concrete literals,
plus the single-lookup shape on a concrete one-table store. -/
theorem pk_scan_coercion_witness :
    pkScanId (.Float (((5 : Int) : ℚ))) = .Integer 5 ∧
    pkScanId (.Float ((1 : ℚ) / 2)) = .Float ((1 : ℚ) / 2) ∧
    pkScanId (.String "x") = .String "x" ∧
    pkScanExecute uStore "u" (.Integer 1) =
      (readById uStore "u" (pkScanId (.Integer 1)) >>=
        fun r => .ok (uTable.columns.map (fun c => c.name), r.toList)) :=
  ⟨pk_scan_coercion.1 5 (by norm_num) (by norm_num),
   pk_scan_coercion.2.1 ((1 : ℚ) / 2) (by
     have : ratTrunc ((1 : ℚ) / 2) = 0 := by
       unfold ratTrunc
       rw [if_pos (by norm_num)]
       norm_num [Int.floor_eq_zero_iff]
     unfold ratFract
     rw [this]
     norm_num),
   pk_scan_coercion.2.2.1 (.String "x") (fun q h => by cases h),
   pk_scan_coercion.2.2.2 uStore "u" (.Integer 1) uTable rfl⟩

/-- Claim C5 counterexample: with table `t` having primary key `a` and a
second column `b`, the WHERE clause `a = b` — an equality of two Fields, not
of a Field against a Const — is still rewritten to `PrimaryKeyScan` (with
value Null), falsifying the "exactly when the field is compared against a
Const" characterization. -/
theorem build_scan_field_eq_field_counterexample :
    buildScan
      [(Key.Table "t", StoredVal.table ⟨"t",
        [⟨"a", .Integer, false, none, true, false⟩,
         ⟨"b", .Integer, true, none, false, false⟩]⟩)]
      "t" (some (.Operation (.Equal (.Field "a") (.Field "b")))) =
      .ok (.PrimaryKeyScan "t" .Null) := rfl

/-- Claim C5 (amended): the scan rewrite behaves as specified on the WHERE
shapes the claim describes: no WHERE clause gives `Scan`; a non-equality
comparison is never rewritten; and a top-level `Field = Const` equality
gives `PrimaryKeyScan{value}` when the field is the primary key, else
`IndexScan{field, value}` when the field is indexed, else `Scan{filter}`.
(Other WHERE shapes, e.g. `Field = Field`, can also reach `PrimaryKeyScan`,
which is what falsifies the original "exactly when".) -/
theorem build_scan_rewrite (s : Store) (tn : String) (t : Table)
    (hget : mustGetTable s tn = .ok t) :
    buildScan s tn none = .ok (.Scan tn none) ∧
    (∀ l r : Expression,
      buildScan s tn (some (.Operation (.GreaterThan l r))) =
        .ok (.Scan tn (some (.Operation (.GreaterThan l r)))) ∧
      buildScan s tn (some (.Operation (.LessThan l r))) =
        .ok (.Scan tn (some (.Operation (.LessThan l r))))) ∧
    (∀ (f : String) (c : Consts),
      buildScan s tn (some (.Operation (.Equal (.Field f) (.Consts c)))) =
        .ok (if (t.columns.findIdx? (fun col => col.name == f && col.primary_key)).isSome then
            .PrimaryKeyScan tn (valueFromConsts c)
          else if (t.columns.findIdx? (fun col => col.name == f && col.index)).isSome then
            .IndexScan tn f (valueFromConsts c)
          else
            .Scan tn (some (.Operation (.Equal (.Field f) (.Consts c)))))) := by
  refine ⟨rfl, fun l r => ⟨rfl, rfl⟩, ?_⟩
  intro f c
  simp only [buildScan, parseScanFilter, parseScanFilterExpr, Outcome.bind_ok, bind, hget]
  cases hpk : (t.columns.findIdx? (fun col => col.name == f && col.primary_key)) with
  | some i => simp [hpk]
  | none =>
    cases hix : (t.columns.findIdx? (fun col => col.name == f && col.index)) with
    | some i => simp [hpk, hix]
    | none => simp [hpk, hix]

/-- Claim C5 witness: the rewrite evaluated on a concrete table whose
primary key is `a` and which has an indexed column `b`: `a = 1` becomes a
primary-key scan, `b = 2` an index scan, `c = 3` a plain scan, and `a > 1`
is not rewritten. -/
theorem build_scan_rewrite_witness :
    buildScan tStore3 "t" (some (.Operation (.Equal (.Field "a") (.Consts (.Integer 1))))) =
      .ok (.PrimaryKeyScan "t" (.Integer 1)) ∧
    buildScan tStore3 "t" (some (.Operation (.Equal (.Field "b") (.Consts (.Integer 2))))) =
      .ok (.IndexScan "t" "b" (.Integer 2)) ∧
    buildScan tStore3 "t" (some (.Operation (.Equal (.Field "c") (.Consts (.Integer 3))))) =
      .ok (.Scan "t" (some (.Operation (.Equal (.Field "c") (.Consts (.Integer 3)))))) ∧
    buildScan tStore3 "t" (some (.Operation (.GreaterThan (.Field "a") (.Consts (.Integer 1))))) =
      .ok (.Scan "t" (some (.Operation (.GreaterThan (.Field "a") (.Consts (.Integer 1)))))) := by
  refine ⟨?_, ?_, ?_, ?_⟩
  · have h := (build_scan_rewrite tStore3 "t" tTable3 rfl).2.2 "a" (.Integer 1)
    simpa [tStore3, tTable3] using h
  · have h := (build_scan_rewrite tStore3 "t" tTable3 rfl).2.2 "b" (.Integer 2)
    simpa [tStore3, tTable3] using h
  · have h := (build_scan_rewrite tStore3 "t" tTable3 rfl).2.2 "c" (.Integer 3)
    simpa [tStore3, tTable3] using h
  · exact ((build_scan_rewrite tStore3 "t" tTable3 rfl).2.1 _ _).1

/-- Helper: lookup through a cons cell. -/
theorem sget_cons (e : Key × StoredVal) (t : Store) (k : Key) :
    sget (e :: t) k = if e.1 = k then some e.2 else sget t k := by
  simp only [sget, List.find?_cons]
  by_cases h : e.1 = k
  · simp [h]
  · have hb : (e.1 == k) = false := by simp [h]
    rw [hb, if_neg h]

/-- Helper: lookup after a delete. -/
theorem sget_sdel (s : Store) (k k' : Key) :
    sget (sdel k s) k' = if k' = k then none else sget s k' := by
  induction s with
  | nil => simp [sget, sdel]
  | cons e t ih =>
    by_cases hek : e.1 = k
    · rw [show sdel k (e :: t) = sdel k t by simp [sdel, List.filter_cons, hek], ih,
        sget_cons]
      by_cases hk' : k' = k
      · simp [hk']
      · rw [if_neg hk', if_neg hk', if_neg (by rw [hek]; exact fun he => hk' he.symm)]
    · rw [show sdel k (e :: t) = e :: sdel k t by simp [sdel, List.filter_cons, hek],
        sget_cons, ih, sget_cons]
      by_cases he' : e.1 = k'
      · rw [if_pos he', if_pos he', if_neg (fun hk => hek (he' ▸ hk))]
      · rw [if_neg he', if_neg he']

/-- Helper: lookup after a put. -/
theorem sget_sput (s : Store) (k k' : Key) (v : StoredVal) :
    sget (sput k v s) k' = if k' = k then some v else sget s k' := by
  unfold sput
  rw [show ((k, v) :: s.filter (fun e => e.1 != k)) = (k, v) :: sdel k s from rfl,
    sget_cons]
  by_cases h : k' = k
  · simp [h]
  · rw [if_neg (fun he => h he.symm), if_neg h, sget_sdel, if_neg h]

/-- Helper: a lookup hit is a member of the store. -/
theorem mem_of_sget_eq_some {s : Store} {k : Key} {v : StoredVal}
    (h : sget s k = some v) : (k, v) ∈ s := by
  unfold sget at h
  cases hf : s.find? (fun e => e.1 == k) with
  | none => rw [hf] at h; cases h
  | some e =>
    rw [hf] at h
    obtain rfl : e.2 = v := by cases h; rfl
    have hmem := List.mem_of_find?_eq_some hf
    have hp := List.find?_some hf
    have : e.1 = k := by simpa using hp
    obtain ⟨e1, e2⟩ := e
    simp only at this
    rw [this] at hmem
    exact hmem

/-- Helper: with unique keys, membership determines the lookup. -/
theorem sget_eq_some_of_mem {s : Store} {k : Key} {v : StoredVal}
    (hnd : (s.map Prod.fst).Nodup) (h : (k, v) ∈ s) : sget s k = some v := by
  induction s with
  | nil => cases h
  | cons e t ih =>
    rw [List.map_cons, List.nodup_cons] at hnd
    rcases List.mem_cons.mp h with rfl | hmem
    · rw [sget_cons, if_pos rfl]
    · have hk : k ∈ t.map Prod.fst := List.mem_map.mpr ⟨(k, v), hmem, rfl⟩
      have hne : e.1 ≠ k := fun he => hnd.1 (he ▸ hk)
      rw [sget_cons, if_neg hne]
      exact ih hnd.2 hmem

/-- Helper: well-shaped stores only hold tables under `Table` keys. -/
theorem sget_table_shape {s : Store} (hsh : s.all wfShaped = true) {tn : String}
    {sv : StoredVal} (h : sget s (Key.Table tn) = some sv) : ∃ t, sv = .table t := by
  have hmem := mem_of_sget_eq_some h
  have := List.all_eq_true.mp hsh _ hmem
  cases sv with
  | table t => exact ⟨t, rfl⟩
  | row r => simp [wfShaped] at this
  | indexSet st => simp [wfShaped] at this

/-- Helper: well-shaped stores only hold rows under `Row` keys. -/
theorem sget_row_shape {s : Store} (hsh : s.all wfShaped = true) {tn : String}
    {pk : Value} {sv : StoredVal} (h : sget s (Key.Row tn pk) = some sv) :
    ∃ r, sv = .row r := by
  have hmem := mem_of_sget_eq_some h
  have := List.all_eq_true.mp hsh _ hmem
  cases sv with
  | table t => simp [wfShaped] at this
  | row r => exact ⟨r, rfl⟩
  | indexSet st => simp [wfShaped] at this

/-- Helper: well-shaped stores only hold sets under `Index` keys. -/
theorem sget_index_shape {s : Store} (hsh : s.all wfShaped = true)
    {tn cn : String} {v : Value} {sv : StoredVal}
    (h : sget s (Key.Index tn cn v) = some sv) : ∃ st, sv = .indexSet st := by
  have hmem := mem_of_sget_eq_some h
  have := List.all_eq_true.mp hsh _ hmem
  cases sv with
  | table t => simp [wfShaped] at this
  | row r => simp [wfShaped] at this
  | indexSet st => exact ⟨st, rfl⟩

/-- Helper: shape of all entries survives a delete. -/
theorem all_shaped_sdel {s : Store} (hsh : s.all wfShaped = true) (k : Key) :
    (sdel k s).all wfShaped = true := by
  rw [List.all_eq_true] at hsh ⊢
  intro e he
  exact hsh e (List.mem_of_mem_filter he)

/-- Helper: shape of all entries survives a put of a well-shaped entry. -/
theorem all_shaped_sput {s : Store} (hsh : s.all wfShaped = true) {k : Key}
    {v : StoredVal} (hkv : wfShaped (k, v) = true) :
    (sput k v s).all wfShaped = true := by
  rw [List.all_eq_true] at hsh ⊢
  intro e he
  rcases List.mem_cons.mp he with rfl | he'
  · exact hkv
  · exact hsh e (List.mem_of_mem_filter he')

/-- Helper: key uniqueness survives a delete. -/
theorem nodup_sdel {s : Store} (hnd : (s.map Prod.fst).Nodup) (k : Key) :
    ((sdel k s).map Prod.fst).Nodup :=
  ((List.filter_sublist s).map Prod.fst).nodup hnd

/-- Helper: key uniqueness survives a put. -/
theorem nodup_sput {s : Store} (hnd : (s.map Prod.fst).Nodup) (k : Key)
    (v : StoredVal) : ((sput k v s).map Prod.fst).Nodup := by
  unfold sput
  rw [List.map_cons, List.nodup_cons]
  constructor
  · intro hk
    rcases List.mem_map.mp hk with ⟨e, he, hek⟩
    have := List.of_mem_filter he
    rw [hek] at this
    simp at this
  · exact nodup_sdel hnd k

/-- Helper: well-formedness survives a delete. -/
theorem wf_sdel {s : Store} (hwf : WfStore s) (k : Key) : WfStore (sdel k s) :=
  ⟨all_shaped_sdel hwf.1 k, nodup_sdel hwf.2 k⟩

/-- Helper: well-formedness survives a put of a well-shaped entry. -/
theorem wf_sput {s : Store} (hwf : WfStore s) {k : Key} {v : StoredVal}
    (hkv : wfShaped (k, v) = true) : WfStore (sput k v s) :=
  ⟨all_shaped_sput hwf.1 hkv, nodup_sput hwf.2 k v⟩

/-- Helper: well-formedness survives `save_index`. -/
theorem wf_saveIndex {s : Store} (hwf : WfStore s) (tn cn : String) (v : Value)
    (st : List Value) : WfStore (saveIndex s tn cn v st) := by
  unfold saveIndex
  by_cases h : st.isEmpty
  · rw [if_pos h]; exact wf_sdel hwf _
  · rw [if_neg h]; exact wf_sput hwf rfl

/-- Helper: table lookup ignores a put under a different key kind. -/
theorem tableAt_sput {s : Store} {k : Key} (v : StoredVal) (tn : String)
    (h : ∀ n, k ≠ Key.Table n) : tableAt (sput k v s) tn = tableAt s tn := by
  unfold tableAt
  rw [sget_sput, if_neg (fun he => (h tn) he.symm)]

/-- Helper: table lookup ignores a delete under a different key kind. -/
theorem tableAt_sdel {s : Store} {k : Key} (tn : String)
    (h : ∀ n, k ≠ Key.Table n) : tableAt (sdel k s) tn = tableAt s tn := by
  unfold tableAt
  rw [sget_sdel, if_neg (fun he => (h tn) he.symm)]

/-- Helper: table lookup ignores `save_index`. -/
theorem tableAt_saveIndex (s : Store) (tn0 cn : String) (v : Value)
    (st : List Value) (tn : String) :
    tableAt (saveIndex s tn0 cn v st) tn = tableAt s tn := by
  unfold saveIndex
  by_cases h : st.isEmpty
  · rw [if_pos h, tableAt_sdel _ (fun n => by simp)]
  · rw [if_neg h, tableAt_sput _ _ (fun n => by simp)]

/-- Helper: row lookup after a row put. -/
theorem rowAtStore_sput_row (s : Store) (tn : String) (pk : Value)
    (r : List Value) (tn' : String) (pk' : Value) :
    rowAtStore (sput (Key.Row tn pk) (.row r) s) tn' pk' =
      if tn' = tn ∧ pk' = pk then some r else rowAtStore s tn' pk' := by
  unfold rowAtStore
  rw [sget_sput]
  by_cases h : tn' = tn ∧ pk' = pk
  · rw [if_pos (by rw [h.1, h.2]), if_pos h]
  · rw [if_neg (fun he => h (by cases he; exact ⟨rfl, rfl⟩)), if_neg h]

/-- Helper: row lookup after a row delete. -/
theorem rowAtStore_sdel_row (s : Store) (tn : String) (pk : Value)
    (tn' : String) (pk' : Value) :
    rowAtStore (sdel (Key.Row tn pk) s) tn' pk' =
      if tn' = tn ∧ pk' = pk then none else rowAtStore s tn' pk' := by
  unfold rowAtStore
  rw [sget_sdel]
  by_cases h : tn' = tn ∧ pk' = pk
  · rw [if_pos (by rw [h.1, h.2]), if_pos h]
  · rw [if_neg (fun he => h (by cases he; exact ⟨rfl, rfl⟩)), if_neg h]

/-- Helper: row lookup ignores `save_index`. -/
theorem rowAtStore_saveIndex (s : Store) (tn0 cn : String) (v : Value)
    (st : List Value) (tn : String) (pk : Value) :
    rowAtStore (saveIndex s tn0 cn v st) tn pk = rowAtStore s tn pk := by
  unfold saveIndex rowAtStore
  by_cases h : st.isEmpty
  · rw [if_pos h, sget_sdel, if_neg (by simp)]
  · rw [if_neg h, sget_sput, if_neg (by simp)]

/-- Helper: index-set lookup after `save_index`. -/
theorem loadSet_saveIndex (s : Store) (tn cn : String) (v : Value)
    (st : List Value) (tn' cn' : String) (v' : Value) :
    loadSet (saveIndex s tn cn v st) tn' cn' v' =
      if tn' = tn ∧ cn' = cn ∧ v' = v then st else loadSet s tn' cn' v' := by
  unfold saveIndex loadSet
  by_cases hsame : tn' = tn ∧ cn' = cn ∧ v' = v
  · obtain ⟨h1, h2, h3⟩ := hsame
    subst h1; subst h2; subst h3
    by_cases h : st.isEmpty
    · rw [if_pos h, sget_sdel, if_pos rfl, if_pos ⟨rfl, rfl, rfl⟩]
      simp [List.isEmpty_iff.mp h]
    · rw [if_neg h, sget_sput, if_pos rfl, if_pos ⟨rfl, rfl, rfl⟩]
  · have hkey : Key.Index tn' cn' v' ≠ Key.Index tn cn v := by
      intro he
      cases he
      exact hsame ⟨rfl, rfl, rfl⟩
    by_cases h : st.isEmpty
    · rw [if_pos h, sget_sdel, if_neg hkey, if_neg hsame]
    · rw [if_neg h, sget_sput, if_neg hkey, if_neg hsame]

/-- Helper: index-set lookup ignores a row put. -/
theorem loadSet_sput_row (s : Store) (tn0 : String) (pk : Value)
    (r : List Value) (tn cn : String) (v : Value) :
    loadSet (sput (Key.Row tn0 pk) (.row r) s) tn cn v = loadSet s tn cn v := by
  unfold loadSet
  rw [sget_sput, if_neg (by simp)]

/-- Helper: index-set lookup ignores a row delete. -/
theorem loadSet_sdel_row (s : Store) (tn0 : String) (pk : Value)
    (tn cn : String) (v : Value) :
    loadSet (sdel (Key.Row tn0 pk) s) tn cn v = loadSet s tn cn v := by
  unfold loadSet
  rw [sget_sdel, if_neg (by simp)]

/-- Helper: presence of an index key after `save_index`. -/
theorem sget_index_saveIndex (s : Store) (tn cn : String) (v : Value)
    (st : List Value) (tn' cn' : String) (v' : Value) :
    sget (saveIndex s tn cn v st) (Key.Index tn' cn' v') =
      if tn' = tn ∧ cn' = cn ∧ v' = v then
        (if st.isEmpty then none else some (.indexSet st))
      else sget s (Key.Index tn' cn' v') := by
  unfold saveIndex
  by_cases hsame : tn' = tn ∧ cn' = cn ∧ v' = v
  · obtain ⟨h1, h2, h3⟩ := hsame
    subst h1; subst h2; subst h3
    by_cases h : st.isEmpty
    · rw [if_pos h, sget_sdel, if_pos rfl, if_pos ⟨rfl, rfl, rfl⟩, if_pos h]
    · rw [if_neg h, sget_sput, if_pos rfl, if_pos ⟨rfl, rfl, rfl⟩, if_neg h]
  · have hkey : Key.Index tn' cn' v' ≠ Key.Index tn cn v := by
      intro he
      cases he
      exact hsame ⟨rfl, rfl, rfl⟩
    by_cases h : st.isEmpty
    · rw [if_pos h, sget_sdel, if_neg hkey, if_neg hsame]
    · rw [if_neg h, sget_sput, if_neg hkey, if_neg hsame]

/-- Helper: presence of an index key ignores a row put. -/
theorem sget_index_sput_row (s : Store) (tn0 : String) (pk : Value)
    (r : List Value) (tn cn : String) (v : Value) :
    sget (sput (Key.Row tn0 pk) (.row r) s) (Key.Index tn cn v) =
      sget s (Key.Index tn cn v) := by
  rw [sget_sput, if_neg (by simp)]

/-- Helper: presence of an index key ignores a row delete. -/
theorem sget_index_sdel_row (s : Store) (tn0 : String) (pk : Value)
    (tn cn : String) (v : Value) :
    sget (sdel (Key.Row tn0 pk) s) (Key.Index tn cn v) =
      sget s (Key.Index tn cn v) := by
  rw [sget_sdel, if_neg (by simp)]

/-- Helper: `load_index` computes `loadSet` on a well-shaped store. -/
theorem loadIndex_eq_loadSet {s : Store} (hsh : s.all wfShaped = true)
    (tn cn : String) (v : Value) :
    loadIndex s tn cn v = .ok (loadSet s tn cn v) := by
  unfold loadIndex loadSet
  cases hget : sget s (Key.Index tn cn v) with
  | none => rfl
  | some sv =>
    obtain ⟨st, rfl⟩ := sget_index_shape hsh hget
    rfl

/-- Helper: `read_by_id` computes `rowAtStore` on a well-shaped store. -/
theorem readById_eq_rowAtStore {s : Store} (hsh : s.all wfShaped = true)
    (tn : String) (pk : Value) :
    readById s tn pk = .ok (rowAtStore s tn pk) := by
  unfold readById rowAtStore
  cases hget : sget s (Key.Row tn pk) with
  | none => rfl
  | some sv =>
    obtain ⟨r, rfl⟩ := sget_row_shape hsh hget
    rfl

/-- Helper: a successful `rowAtStore` is a `Row`-shaped lookup hit. -/
theorem rowAtStore_eq_some {s : Store} {tn : String} {pk : Value}
    {r : List Value} (h : rowAtStore s tn pk = some r) :
    sget s (Key.Row tn pk) = some (.row r) := by
  unfold rowAtStore at h
  cases hget : sget s (Key.Row tn pk) with
  | none => rw [hget] at h; cases h
  | some sv =>
    rw [hget] at h
    cases sv with
    | table t => cases h
    | row r' => cases h; rfl
    | indexSet st => cases h

/-- Helper: a successful `tableAt` is a `Table`-shaped lookup hit. -/
theorem tableAt_eq_some {s : Store} {tn : String} {t : Table}
    (h : tableAt s tn = some t) : sget s (Key.Table tn) = some (.table t) := by
  unfold tableAt at h
  cases hget : sget s (Key.Table tn) with
  | none => rw [hget] at h; cases h
  | some sv =>
    rw [hget] at h
    cases sv with
    | table t' => cases h; rfl
    | row r => cases h
    | indexSet st => cases h

/-- Helper: a non-empty `loadSet` is an `Index`-shaped lookup hit. -/
theorem loadSet_mem_sget {s : Store} {tn cn : String} {v : Value} {pk : Value}
    (h : pk ∈ loadSet s tn cn v) :
    sget s (Key.Index tn cn v) = some (.indexSet (loadSet s tn cn v)) := by
  cases hget : sget s (Key.Index tn cn v) with
  | none => unfold loadSet at h; rw [hget] at h; cases h
  | some sv =>
    cases sv with
    | table t => unfold loadSet at h; rw [hget] at h; cases h
    | row r => unfold loadSet at h; rw [hget] at h; cases h
    | indexSet st =>
      have hst : loadSet s tn cn v = st := by unfold loadSet; rw [hget]
      rw [hst]

/-- Helper: the entry-level invariant implies the lookup-level one. -/
theorem inv_elim {s : Store} (hwf : WfStore s) (hinv : Inv s = true) :
    P1acc s ∧ P2acc s ∧ P3acc s := by
  refine ⟨?_, ?_, ?_⟩
  · intro tn pk r tb hrow htab ic hic
    have hmem := mem_of_sget_eq_some (rowAtStore_eq_some hrow)
    have he := List.all_eq_true.mp hinv _ hmem
    rw [Bool.and_eq_true, Bool.and_eq_true] at he
    have h1 := he.1.1
    simp only [invP1e, htab] at h1
    have := List.all_eq_true.mp h1 ic hic
    simpa using this
  · intro tn cn v pk hmem
    have hget := loadSet_mem_sget hmem
    have hentry := mem_of_sget_eq_some hget
    have he := List.all_eq_true.mp hinv _ hentry
    rw [Bool.and_eq_true, Bool.and_eq_true] at he
    have h2 := he.1.2
    simp only [invP2e] at h2
    have hpk := List.all_eq_true.mp h2 pk hmem
    cases hrow : rowAtStore s tn pk with
    | none => rw [hrow] at hpk; cases htab : tableAt s tn <;> rw [htab] at hpk <;> cases hpk
    | some r =>
      cases htab : tableAt s tn with
      | none => rw [hrow, htab] at hpk; cases hpk
      | some tb =>
        rw [hrow, htab] at hpk
        rcases List.any_eq_true.mp hpk with ⟨ic, hic, hcond⟩
        rw [Bool.and_eq_true] at hcond
        exact ⟨r, tb, ic, rfl, rfl, hic, by simpa using hcond.1, by simpa using hcond.2⟩
  · intro tn cn v hsome
    rcases Option.isSome_iff_exists.mp hsome with ⟨sv, hget⟩
    obtain ⟨st, rfl⟩ := sget_index_shape hwf.1 hget
    have hentry := mem_of_sget_eq_some hget
    have he := List.all_eq_true.mp hinv _ hentry
    rw [Bool.and_eq_true, Bool.and_eq_true] at he
    have h3 := he.2
    simp only [invP3e, Bool.not_eq_true'] at h3
    have hload : loadSet s tn cn v = st := by unfold loadSet; rw [hget]
    rw [hload]
    intro hnil
    rw [hnil] at h3
    simp at h3

/-- Helper: the lookup-level invariant implies the entry-level one. -/
theorem inv_intro {s : Store} (hwf : WfStore s) (h1 : P1acc s) (h2 : P2acc s)
    (h3 : P3acc s) : Inv s = true := by
  rw [Inv, List.all_eq_true]
  intro e he
  rw [Bool.and_eq_true, Bool.and_eq_true]
  obtain ⟨k, sv⟩ := e
  have hget : sget s k = some sv := sget_eq_some_of_mem hwf.2 he
  refine ⟨⟨?_, ?_⟩, ?_⟩
  · cases k with
    | Row tn pk =>
      cases sv with
      | row r =>
        simp only [invP1e]
        cases htab : tableAt s tn with
        | none => rfl
        | some tb =>
          rw [List.all_eq_true]
          intro ic hic
          have hrow : rowAtStore s tn pk = some r := by unfold rowAtStore; rw [hget]
          have := h1 tn pk r tb hrow htab ic hic
          simpa using this
      | table t => rfl
      | indexSet st => rfl
    | Table tn => cases sv <;> rfl
    | Index tn cn v => cases sv <;> rfl
  · cases k with
    | Index tn cn v =>
      cases sv with
      | indexSet st =>
        simp only [invP2e]
        rw [List.all_eq_true]
        intro pk hpk
        have hload : loadSet s tn cn v = st := by unfold loadSet; rw [hget]
        rcases h2 tn cn v pk (by rw [hload]; exact hpk) with
          ⟨r, tb, ic, hrow, htab, hic, hname, hval⟩
        rw [hrow, htab]
        exact List.any_eq_true.mpr ⟨ic, hic, by simp [hname, hval]⟩
      | table t => rfl
      | row r => rfl
    | Table tn => cases sv <;> rfl
    | Row tn pk => cases sv <;> rfl
  · cases k with
    | Index tn cn v =>
      cases sv with
      | indexSet st =>
        simp only [invP3e, Bool.not_eq_true']
        have hload : loadSet s tn cn v = st := by unfold loadSet; rw [hget]
        have := h3 tn cn v (by rw [hget]; rfl)
        rw [hload] at this
        cases hst : st.isEmpty
        · rfl
        · exact absurd (List.isEmpty_iff.mp hst) this
      | table t => rfl
      | row r => rfl
    | Table tn => cases sv <;> rfl
    | Row tn pk => cases sv <;> rfl

/-- Helper: only Null has no datatype. -/
theorem datatype_none_iff (v : Value) : v.datatype = none ↔ v = .Null := by
  cases v <;> simp [Value.datatype]

/-- Helper: one step of the row-validation loop. -/
theorem validate_cons (row : List Value) (c : Column) (t : List Column) (i : Nat) :
    validateRowGo row i (c :: t) = none ↔
      ((match (rowAt row i).datatype with
        | none => c.nullable = true
        | some dt => dt = c.datatype) ∧
        validateRowGo row (i + 1) t = none) := by
  simp only [validateRowGo]
  cases hd : (rowAt row i).datatype with
  | none =>
    by_cases hn : c.nullable
    · simp [hn]
    · simp [hn]
  | some dt =>
    by_cases he : dt = c.datatype
    · simp [he]
    · simp [he]

/-- Helper: the validation loop accepts exactly the rows every column of
which is valid (Null only on nullable columns, otherwise matching types). -/
theorem validate_none_iff (row : List Value) :
    ∀ (cols : List Column) (i : Nat),
      validateRowGo row i cols = none ↔
        ∀ j col, cols[j]? = some col →
          (match (rowAt row (i + j)).datatype with
           | none => col.nullable = true
           | some dt => dt = col.datatype) := by
  intro cols
  induction cols with
  | nil =>
    intro i
    simp [validateRowGo]
  | cons c t ih =>
    intro i
    rw [validate_cons, ih (i + 1)]
    constructor
    · rintro ⟨hc, ht⟩ j col hj
      cases j with
      | zero =>
        rw [List.getElem?_cons_zero] at hj
        cases hj
        simpa using hc
      | succ j' =>
        rw [List.getElem?_cons_succ] at hj
        have := ht j' col hj
        rwa [show i + 1 + j' = i + (j' + 1) by omega] at this
    · intro h
      refine ⟨by simpa using h 0 c (by simp), ?_⟩
      intro j' col hj
      have := h (j' + 1) col (by rwa [List.getElem?_cons_succ])
      rwa [show i + (j' + 1) = i + 1 + j' by omega] at this

/-- Helper: shape of all entries survives `save_index`. -/
theorem all_shaped_saveIndex {s : Store} (hsh : s.all wfShaped = true)
    (tn cn : String) (v : Value) (st : List Value) :
    (saveIndex s tn cn v st).all wfShaped = true := by
  unfold saveIndex
  by_cases h : st.isEmpty
  · rw [if_pos h]; exact all_shaped_sdel hsh _
  · rw [if_neg h]; exact all_shaped_sput hsh rfl

/-- Helper: on a well-shaped store the index-maintenance loop of
`create_row` always succeeds, preserving shapes. -/
theorem createRowIndexes_ok (tn : String) (pk : Value) (row : List Value) :
    ∀ (l : List (Nat × Column)) (s : Store), s.all wfShaped = true →
      ∃ s2, createRowIndexes tn pk row s l = .ok () s2 ∧ s2.all wfShaped = true := by
  intro l
  induction l with
  | nil => exact fun s hsh => ⟨s, rfl, hsh⟩
  | cons ic rest ih =>
    intro s hsh
    obtain ⟨i, col⟩ := ic
    have hload := loadIndex_eq_loadSet hsh tn col.name (rowAt row i)
    rcases ih (saveIndex s tn col.name (rowAt row i)
        (hsInsert pk (loadSet s tn col.name (rowAt row i))))
        (all_shaped_saveIndex hsh _ _ _ _) with ⟨s2, h2, hsh2⟩
    refine ⟨s2, ?_, hsh2⟩
    simp only [createRowIndexes, hload]
    exact h2

/-- Claim C4: with the table stored, a primary-key column present, and a row
of matching width, `create_row` errors exactly when some column value is
Null on a non-nullable column, some non-Null value has the wrong datatype,
or the `Row(table, pk)` key already exists; every error is returned with
the store untouched (in particular the duplicate check precedes all
writes), and no panic is possible. -/
theorem create_row_errors (s : Store) (tn : String) (t : Table)
    (row : List Value) (hwf : WfStore s) (hget : tableAt s tn = some t)
    (hpk : (t.columns.findIdx? (fun c => c.primary_key)).isSome)
    (hlen : row.length = t.columns.length) :
    ((∃ e s', createRow s tn row = .err e s') ↔
      ((∃ j col, t.columns[j]? = some col ∧
          ((rowAt row j = .Null ∧ col.nullable = false) ∨
           (∃ dt, (rowAt row j).datatype = some dt ∧ dt ≠ col.datatype))) ∨
        (∃ ppos, t.columns.findIdx? (fun c => c.primary_key) = some ppos ∧
          (sget s (Key.Row tn (rowAt row ppos))).isSome = true))) ∧
    (∀ e s', createRow s tn row = .err e s' → s' = s) ∧
    createRow s tn row ≠ .panic := by
  have hmgt : mustGetTable s tn = .ok t := by
    unfold mustGetTable
    rw [tableAt_eq_some hget]
  rcases Option.isSome_iff_exists.mp hpk with ⟨ppos, hppos⟩
  have hgpk : getPrimaryKey t row = .ok (rowAt row ppos) := by
    unfold getPrimaryKey
    rw [hppos]
  cases hv : validateRowGo row 0 t.columns with
  | some e =>
    have hres : createRow s tn row = .err e s := by
      simp only [createRow, hmgt, hv]
    refine ⟨?_, ?_, ?_⟩
    · rw [hres]
      constructor
      · intro _
        left
        by_contra hno
        push_neg at hno
        have : validateRowGo row 0 t.columns = none := by
          rw [validate_none_iff]
          intro j col hj
          rw [Nat.zero_add]
          have hcol := hno j col hj
          cases hd : (rowAt row j).datatype with
          | none =>
            have hnull : rowAt row j = .Null := (datatype_none_iff _).mp hd
            cases hn : col.nullable with
            | true => rfl
            | false => exact absurd hn (hcol.1 hnull)
          | some dt => exact hcol.2 dt hd
        rw [this] at hv
        cases hv
      · intro _
        exact ⟨e, s, rfl⟩
    · intro e' s' h
      rw [hres] at h
      cases h
      rfl
    · rw [hres]
      intro h
      cases h
  | none =>
    have hvalid := (validate_none_iff row t.columns 0).mp hv
    cases hdup : (sget s (Key.Row tn (rowAt row ppos))).isSome with
    | true =>
      have hres : createRow s tn row = .err (.internal "Duplicate data for primary key") s := by
        simp [createRow, hmgt, hv, hgpk, hdup]
      refine ⟨?_, ?_, ?_⟩
      · rw [hres]
        constructor
        · intro _
          right
          exact ⟨ppos, hppos, hdup⟩
        · intro _
          exact ⟨_, s, rfl⟩
      · intro e' s' h
        rw [hres] at h
        cases h
        rfl
      · rw [hres]
        intro h
        cases h
    | false =>
      rcases createRowIndexes_ok tn (rowAt row ppos) row (indexColsOf t)
          (sput (Key.Row tn (rowAt row ppos)) (.row row) s)
          (all_shaped_sput hwf.1 rfl) with ⟨s2, h2, _⟩
      have hres : createRow s tn row = .ok () s2 := by
        simp [createRow, hmgt, hv, hgpk, hdup]
        exact h2
      refine ⟨?_, ?_, ?_⟩
      · rw [hres]
        constructor
        · rintro ⟨e, s', h⟩
          cases h
        · intro hcond
          exfalso
          rcases hcond with ⟨j, col, hj, hviol⟩ | ⟨ppos', hppos', hdup'⟩
          · have := hvalid j col hj
            rw [Nat.zero_add] at this
            rcases hviol with ⟨hnull, hnn⟩ | ⟨dt, hdt, hne⟩
            · rw [show (rowAt row j).datatype = none by
                rw [datatype_none_iff]; exact hnull] at this
              rw [hnn] at this
              cases this
            · rw [hdt] at this
              exact hne this
          · rw [hppos'] at hppos
            cases hppos
            rw [hdup'] at hdup
            cases hdup
      · intro e' s' h
        rw [hres] at h
        cases h
      · rw [hres]
        intro h
        cases h

/-- Claim C4 witness: on a concrete store and table, a duplicate-key insert
errors (with the original store returned unchanged), and the
characterization certifies that a fresh insert cannot error. -/
theorem create_row_errors_witness :
    (∃ e s', createRow tIdxStore2 "t" [.Integer 1, .String "y"] = .err e s') ∧
    (∀ e s', createRow tIdxStore2 "t" [.Integer 1, .String "y"] = .err e s' →
      s' = tIdxStore2) ∧
    createRow tIdxStore2 "t" [.Integer 2, .String "y"] ≠ .panic := by
  have h1 := create_row_errors tIdxStore2 "t" tIdxTable [.Integer 1, .String "y"]
    (by constructor <;> decide) (by decide) (by decide) (by decide)
  have h2 := create_row_errors tIdxStore2 "t" tIdxTable [.Integer 2, .String "y"]
    (by constructor <;> decide) (by decide) (by decide) (by decide)
  exact ⟨h1.1.mpr (by right; exact ⟨0, by decide, by decide⟩), h1.2.1, h2.2.2⟩

/-- Helper: membership after a `HashSet::insert`. -/
theorem mem_hsInsert (x v : Value) (st : List Value) :
    x ∈ hsInsert v st ↔ x ∈ st ∨ x = v := by
  unfold hsInsert
  by_cases h : v ∈ st
  · rw [if_pos h]
    constructor
    · exact Or.inl
    · rintro (hx | rfl)
      · exact hx
      · exact h
  · rw [if_neg h]
    simp

/-- Helper: an insert result is never empty. -/
theorem hsInsert_ne_nil (v : Value) (st : List Value) : hsInsert v st ≠ [] := by
  unfold hsInsert
  by_cases h : v ∈ st
  · rw [if_pos h]
    exact List.ne_nil_of_mem h
  · rw [if_neg h]
    simp

/-- Helper: membership after a `HashSet::remove`. -/
theorem mem_hsRemove (x v : Value) (st : List Value) :
    x ∈ hsRemove v st ↔ x ∈ st ∧ x ≠ v := by
  unfold hsRemove
  simp

/-- Helper: the indexed columns carry pairwise distinct names when the
table's column names are distinct. -/
theorem indexColsOf_names_nodup (t : Table)
    (h : (t.columns.map (fun c => c.name)).Nodup) :
    ((indexColsOf t).map (fun ic => ic.2.name)).Nodup := by
  have hsub : List.Sublist (indexColsOf t) t.columns.enum := List.filter_sublist _
  have hmap : List.Sublist ((indexColsOf t).map (fun ic => ic.2.name))
      (t.columns.enum.map (fun ic => ic.2.name)) := hsub.map _
  have henum : t.columns.enum.map (fun ic => ic.2.name) =
      t.columns.map (fun c => c.name) := by
    rw [show (fun ic : Nat × Column => ic.2.name) =
        (fun c : Column => c.name) ∘ Prod.snd from rfl, ← List.map_map,
      List.enum_map_snd]
  rw [henum] at hmap
  exact h.sublist hmap

/-- Helper: what the `create_row` index loop does to the store: tables and
rows are untouched, each stored index set only gains the new primary key
(exactly at the row's indexed column values), well-formedness and part 3 of
the invariant are preserved. -/
theorem createRowIndexes_trans (tn : String) (pk : Value) (row : List Value) :
    ∀ (l : List (Nat × Column)) (s s2 : Store), s.all wfShaped = true →
      createRowIndexes tn pk row s l = .ok () s2 →
      (∀ tn', tableAt s2 tn' = tableAt s tn') ∧
      (∀ tn' pk', rowAtStore s2 tn' pk' = rowAtStore s tn' pk') ∧
      (∀ tn' cn' v' x, x ∈ loadSet s2 tn' cn' v' ↔
        (x ∈ loadSet s tn' cn' v' ∨
          (x = pk ∧ tn' = tn ∧ ∃ ic ∈ l, ic.2.name = cn' ∧ rowAt row ic.1 = v'))) ∧
      (P3acc s → P3acc s2) ∧ (WfStore s → WfStore s2) := by
  intro l
  induction l with
  | nil =>
    intro s s2 hsh hok
    obtain rfl : s = s2 := by
      simp only [createRowIndexes] at hok
      cases hok
      rfl
    exact ⟨fun _ => rfl, fun _ _ => rfl, fun tn' cn' v' x => by simp, id, id⟩
  | cons ic rest ih =>
    intro s s2 hsh hok
    obtain ⟨i, col⟩ := ic
    have hload := loadIndex_eq_loadSet hsh tn col.name (rowAt row i)
    simp only [createRowIndexes, hload] at hok
    set st0 := loadSet s tn col.name (rowAt row i) with hst0
    set sm := saveIndex s tn col.name (rowAt row i) (hsInsert pk st0) with hsm
    rcases ih sm s2 (all_shaped_saveIndex hsh _ _ _ _) hok with ⟨htab, hrow, hmem, hp3, hwf⟩
    refine ⟨?_, ?_, ?_, ?_, ?_⟩
    · intro tn'
      rw [htab tn', hsm, tableAt_saveIndex]
    · intro tn' pk'
      rw [hrow tn' pk', hsm, rowAtStore_saveIndex]
    · intro tn' cn' v' x
      rw [hmem tn' cn' v' x]
      by_cases hk : tn' = tn ∧ cn' = col.name ∧ v' = rowAt row i
      · obtain ⟨h1, h2, h3⟩ := hk
        subst h1; subst h2; subst h3
        rw [hsm, loadSet_saveIndex, if_pos ⟨rfl, rfl, rfl⟩, mem_hsInsert]
        constructor
        · rintro ((hx | rfl) | ⟨rfl, _, hic⟩)
          · exact Or.inl hx
          · exact Or.inr ⟨rfl, rfl, (i, col), List.mem_cons_self _ _, rfl, rfl⟩
          · exact Or.inr ⟨rfl, rfl, by
              rcases hic with ⟨ic', hic', hprop⟩
              exact ⟨ic', List.mem_cons_of_mem _ hic', hprop⟩⟩
        · rintro (hx | ⟨rfl, _, ic', hic', hname, hval⟩)
          · exact Or.inl (Or.inl hx)
          · rcases List.mem_cons.mp hic' with rfl | hic''
            · exact Or.inl (Or.inr rfl)
            · exact Or.inr ⟨rfl, rfl, ic', hic'', hname, hval⟩
      · rw [hsm, loadSet_saveIndex, if_neg hk]
        constructor
        · rintro (hx | ⟨rfl, rfl, ic', hic', hname, hval⟩)
          · exact Or.inl hx
          · exact Or.inr ⟨rfl, rfl, ic', List.mem_cons_of_mem _ hic', hname, hval⟩
        · rintro (hx | ⟨rfl, rfl, ic', hic', hname, hval⟩)
          · exact Or.inl hx
          · rcases List.mem_cons.mp hic' with rfl | hic''
            · exact absurd ⟨rfl, hname.symm ▸ rfl, hval ▸ rfl⟩ hk
            · exact Or.inr ⟨rfl, rfl, ic', hic'', hname, hval⟩
    · intro hp3s
      refine hp3 ?_
      intro tn' cn' v' hsome
      rw [hsm] at hsome ⊢
      rw [sget_index_saveIndex] at hsome
      rw [loadSet_saveIndex]
      by_cases hk : tn' = tn ∧ cn' = col.name ∧ v' = rowAt row i
      · rw [if_pos hk]
        exact hsInsert_ne_nil pk st0
      · rw [if_neg hk] at hsome ⊢
        exact hp3s tn' cn' v' hsome
    · intro hwfs
      exact hwf (by rw [hsm]; exact wf_saveIndex hwfs _ _ _ _)

/-- Helper: deleting a row that is not stored leaves the store untouched by
the index loop (every iteration re-reads the absent row and skips). -/
theorem deleteRowIndexes_none (t : Table) (pid : Value) :
    ∀ (l : List (Nat × Column)) (s : Store), s.all wfShaped = true →
      rowAtStore s t.name pid = none →
      deleteRowIndexes t pid s l = .ok () s := by
  intro l
  induction l with
  | nil => intro s _ _; rfl
  | cons ic rest ih =>
    intro s hsh hrow
    obtain ⟨i, col⟩ := ic
    have hread : readById s t.name pid = .ok none := by
      rw [readById_eq_rowAtStore hsh, hrow]
    simp only [deleteRowIndexes, hread]
    exact ih s hsh hrow

/-- Helper: what the `delete_row` index loop does to the store when the row
is present: tables and rows untouched, the primary key is removed exactly
from the sets at the row's indexed column values, well-formedness and part 3
of the invariant preserved. -/
theorem deleteRowIndexes_trans (t : Table) (pid : Value) (row0 : List Value) :
    ∀ (l : List (Nat × Column)) (s s2 : Store), s.all wfShaped = true →
      rowAtStore s t.name pid = some row0 →
      deleteRowIndexes t pid s l = .ok () s2 →
      (∀ tn', tableAt s2 tn' = tableAt s tn') ∧
      (∀ tn' pk', rowAtStore s2 tn' pk' = rowAtStore s tn' pk') ∧
      (∀ tn' cn' v' x, x ∈ loadSet s2 tn' cn' v' ↔
        (x ∈ loadSet s tn' cn' v' ∧
          ¬(x = pid ∧ tn' = t.name ∧ ∃ ic ∈ l, ic.2.name = cn' ∧
            rowAt row0 ic.1 = v'))) ∧
      (P3acc s → P3acc s2) ∧ (WfStore s → WfStore s2) := by
  intro l
  induction l with
  | nil =>
    intro s s2 hsh hrow hok
    obtain rfl : s = s2 := by
      simp only [deleteRowIndexes] at hok
      cases hok
      rfl
    exact ⟨fun _ => rfl, fun _ _ => rfl, fun tn' cn' v' x => by simp, id, id⟩
  | cons ic rest ih =>
    intro s s2 hsh hrow hok
    obtain ⟨i, col⟩ := ic
    have hread : readById s t.name pid = .ok (some row0) := by
      rw [readById_eq_rowAtStore hsh, hrow]
    have hload := loadIndex_eq_loadSet hsh t.name col.name (rowAt row0 i)
    simp only [deleteRowIndexes, hread, hload] at hok
    set st0 := loadSet s t.name col.name (rowAt row0 i) with hst0
    set sm := saveIndex s t.name col.name (rowAt row0 i) (hsRemove pid st0) with hsm
    have hrowm : rowAtStore sm t.name pid = some row0 := by
      rw [hsm, rowAtStore_saveIndex]
      exact hrow
    rcases ih sm s2 (by rw [hsm]; exact all_shaped_saveIndex hsh _ _ _ _) hrowm hok with
      ⟨htab, hrowf, hmem, hp3, hwf⟩
    refine ⟨?_, ?_, ?_, ?_, ?_⟩
    · intro tn'
      rw [htab tn', hsm, tableAt_saveIndex]
    · intro tn' pk'
      rw [hrowf tn' pk', hsm, rowAtStore_saveIndex]
    · intro tn' cn' v' x
      rw [hmem tn' cn' v' x]
      by_cases hk : tn' = t.name ∧ cn' = col.name ∧ v' = rowAt row0 i
      · obtain ⟨h1, h2, h3⟩ := hk
        subst h1; subst h2; subst h3
        rw [hsm, loadSet_saveIndex, if_pos ⟨rfl, rfl, rfl⟩, mem_hsRemove]
        constructor
        · rintro ⟨⟨hx, hne⟩, _⟩
          refine ⟨hx, ?_⟩
          rintro ⟨rfl, _, _⟩
          exact hne rfl
        · rintro ⟨hx, hno⟩
          have hne : x ≠ pid := by
            rintro rfl
            exact hno ⟨rfl, rfl, (i, col), List.mem_cons_self _ _, rfl, rfl⟩
          refine ⟨⟨hx, hne⟩, ?_⟩
          rintro ⟨rfl, _, _⟩
          exact hne rfl
      · rw [hsm, loadSet_saveIndex, if_neg hk]
        constructor
        · rintro ⟨hx, hno⟩
          refine ⟨hx, ?_⟩
          rintro ⟨rfl, rfl, ic', hic', hname, hval⟩
          rcases List.mem_cons.mp hic' with rfl | hic''
          · exact hk ⟨rfl, hname.symm ▸ rfl, hval ▸ rfl⟩
          · exact hno ⟨rfl, rfl, ic', hic'', hname, hval⟩
        · rintro ⟨hx, hno⟩
          refine ⟨hx, ?_⟩
          rintro ⟨rfl, rfl, ic', hic', hname, hval⟩
          exact hno ⟨rfl, rfl, ic', List.mem_cons_of_mem _ hic', hname, hval⟩
    · intro hp3s
      refine hp3 ?_
      intro tn' cn' v' hsome
      rw [hsm] at hsome ⊢
      rw [sget_index_saveIndex] at hsome
      rw [loadSet_saveIndex]
      by_cases hk : tn' = t.name ∧ cn' = col.name ∧ v' = rowAt row0 i
      · rw [if_pos hk]
        rw [if_pos hk] at hsome
        cases hemp : (hsRemove pid st0).isEmpty
        · intro hnil
          rw [hnil] at hemp
          simp at hemp
        · rw [hemp] at hsome
          simp at hsome
      · rw [if_neg hk] at hsome ⊢
        exact hp3s tn' cn' v' hsome
    · intro hwfs
      exact hwf (by rw [hsm]; exact wf_saveIndex hwfs _ _ _ _)

/-- Helper: what the `update_row` index loop (unchanged-primary-key case)
does to the store, for a table whose indexed column names are distinct: rows
and tables untouched; index keys of untouched names untouched; existing
memberships survive except the primary key at a changed column's old value;
new memberships are only the primary key at the new row's column values; the
primary key ends up present at every new-value key (given it was present at
unchanged ones) and absent from every changed old-value key. -/
theorem updateRowIndexes_trans (t : Table) (pid : Value) (row row0 : List Value) :
    ∀ (l : List (Nat × Column)) (s s2 : Store), s.all wfShaped = true →
      rowAtStore s t.name pid = some row0 →
      (l.map (fun ic => ic.2.name)).Nodup →
      updateRowIndexes t pid row s l = .ok () s2 →
      (∀ tn', tableAt s2 tn' = tableAt s tn') ∧
      (∀ tn' pk', rowAtStore s2 tn' pk' = rowAtStore s tn' pk') ∧
      (∀ tn' cn' v', ¬(tn' = t.name ∧ ∃ ic ∈ l, ic.2.name = cn') →
        loadSet s2 tn' cn' v' = loadSet s tn' cn' v') ∧
      (∀ x tn' cn' v', x ∈ loadSet s tn' cn' v' →
        ¬(x = pid ∧ tn' = t.name ∧ ∃ ic ∈ l, ic.2.name = cn' ∧
            rowAt row0 ic.1 = v' ∧ rowAt row0 ic.1 ≠ rowAt row ic.1) →
        x ∈ loadSet s2 tn' cn' v') ∧
      (∀ x tn' cn' v', x ∈ loadSet s2 tn' cn' v' →
        x ∈ loadSet s tn' cn' v' ∨
          (x = pid ∧ tn' = t.name ∧ ∃ ic ∈ l, ic.2.name = cn' ∧
            rowAt row ic.1 = v')) ∧
      (∀ ic ∈ l, (rowAt row0 ic.1 = rowAt row ic.1 →
          pid ∈ loadSet s t.name ic.2.name (rowAt row ic.1)) →
        pid ∈ loadSet s2 t.name ic.2.name (rowAt row ic.1)) ∧
      (∀ ic ∈ l, rowAt row0 ic.1 ≠ rowAt row ic.1 →
        pid ∉ loadSet s2 t.name ic.2.name (rowAt row0 ic.1)) ∧
      (P3acc s → P3acc s2) ∧ (WfStore s → WfStore s2) := by
  intro l
  induction l with
  | nil =>
    intro s s2 hsh hrow hnd hok
    obtain rfl : s = s2 := by
      simp only [updateRowIndexes] at hok
      cases hok
      rfl
    refine ⟨fun _ => rfl, fun _ _ => rfl, fun _ _ _ _ => rfl, fun x _ _ _ hx _ => hx,
      fun x _ _ _ hx => Or.inl hx, ?_, ?_, id, id⟩
    · intro ic hic
      cases hic
    · intro ic hic
      cases hic
  | cons ic rest ih =>
    intro s s2 hsh hrow hnd hok
    obtain ⟨i, col⟩ := ic
    rw [List.map_cons, List.nodup_cons] at hnd
    have hname_rest : ∀ ic' ∈ rest, ic'.2.name ≠ col.name := by
      intro ic' hic' he
      exact hnd.1 (List.mem_map.mpr ⟨ic', hic', he⟩)
    have hread : readById s t.name pid = .ok (some row0) := by
      rw [readById_eq_rowAtStore hsh, hrow]
    by_cases heq : rowAt row0 i = rowAt row i
    · -- the indexed column is unchanged: the iteration is a no-op
      have hstep : updateRowIndexes t pid row s ((i, col) :: rest) =
          updateRowIndexes t pid row s rest := by
        simp only [updateRowIndexes, hread]
        rw [if_pos heq]
      rw [hstep] at hok
      rcases ih s s2 hsh hrow hnd.2 hok with
        ⟨htab, hrowf, hm0, hm1, hm2, hm3, hm4, hp3, hwf⟩
      refine ⟨htab, hrowf, ?_, ?_, ?_, ?_, ?_, hp3, hwf⟩
      · intro tn' cn' v' hno
        refine hm0 tn' cn' v' ?_
        rintro ⟨rfl, ic', hic', hn⟩
        exact hno ⟨rfl, ic', List.mem_cons_of_mem _ hic', hn⟩
      · intro x tn' cn' v' hx hno
        refine hm1 x tn' cn' v' hx ?_
        rintro ⟨rfl, rfl, ic', hic', hprop⟩
        exact hno ⟨rfl, rfl, ic', List.mem_cons_of_mem _ hic', hprop⟩
      · intro x tn' cn' v' hx
        rcases hm2 x tn' cn' v' hx with h | ⟨rfl, rfl, ic', hic', hprop⟩
        · exact Or.inl h
        · exact Or.inr ⟨rfl, rfl, ic', List.mem_cons_of_mem _ hic', hprop⟩
      · intro ic' hic' hpre
        rcases List.mem_cons.mp hic' with rfl | hic''
        · -- head: pid is in the old set (premise) and no later iteration
          -- touches this column name
          have hin : pid ∈ loadSet s t.name col.name (rowAt row i) := hpre heq
          refine hm1 pid t.name col.name (rowAt row i) hin ?_
          rintro ⟨-, -, ic'', hic'', hn, -, -⟩
          exact hname_rest ic'' hic'' hn
        · exact hm3 ic' hic'' hpre
      · intro ic' hic' hchg
        rcases List.mem_cons.mp hic' with rfl | hic''
        · exact absurd heq hchg
        · exact hm4 ic' hic'' hchg
    · -- the indexed column changed: move pid from the old set to the new one
      have hload0 := loadIndex_eq_loadSet hsh t.name col.name (rowAt row0 i)
      set st0 := loadSet s t.name col.name (rowAt row0 i) with hst0
      set s1 := saveIndex s t.name col.name (rowAt row0 i) (hsRemove pid st0) with hs1
      have hsh1 : s1.all wfShaped = true := by
        rw [hs1]; exact all_shaped_saveIndex hsh _ _ _ _
      have hload1 := loadIndex_eq_loadSet hsh1 t.name col.name (rowAt row i)
      have hst1 : loadSet s1 t.name col.name (rowAt row i) =
          loadSet s t.name col.name (rowAt row i) := by
        rw [hs1, loadSet_saveIndex, if_neg]
        rintro ⟨-, -, hv⟩
        exact heq hv.symm
      set sm := saveIndex s1 t.name col.name (rowAt row i)
        (hsInsert pid (loadSet s1 t.name col.name (rowAt row i))) with hsm
      have hstep : updateRowIndexes t pid row s ((i, col) :: rest) =
          updateRowIndexes t pid row sm rest := by
        simp only [updateRowIndexes, hread]
        rw [if_neg heq]
        simp only [hload0, ← hs1, hload1, ← hsm]
      rw [hstep] at hok
      have hshm : sm.all wfShaped = true := by
        rw [hsm]; exact all_shaped_saveIndex hsh1 _ _ _ _
      have hrowm : rowAtStore sm t.name pid = some row0 := by
        rw [hsm, rowAtStore_saveIndex, hs1, rowAtStore_saveIndex]
        exact hrow
      -- the closed form of loadSet on sm
      have hsm_set : ∀ tn' cn' v', loadSet sm tn' cn' v' =
          if tn' = t.name ∧ cn' = col.name ∧ v' = rowAt row i then
            hsInsert pid (loadSet s t.name col.name (rowAt row i))
          else if tn' = t.name ∧ cn' = col.name ∧ v' = rowAt row0 i then
            hsRemove pid st0
          else loadSet s tn' cn' v' := by
        intro tn' cn' v'
        rw [hsm, loadSet_saveIndex, hst1]
        by_cases h1 : tn' = t.name ∧ cn' = col.name ∧ v' = rowAt row i
        · rw [if_pos h1, if_pos h1]
        · rw [if_neg h1, if_neg h1, hs1, loadSet_saveIndex]
      rcases ih sm s2 hshm hrowm hnd.2 hok with
        ⟨htab, hrowf, hm0, hm1, hm2, hm3, hm4, hp3, hwf⟩
      have htabm : ∀ tn', tableAt sm tn' = tableAt s tn' := by
        intro tn'
        rw [hsm, tableAt_saveIndex, hs1, tableAt_saveIndex]
      have hrowm' : ∀ tn' pk', rowAtStore sm tn' pk' = rowAtStore s tn' pk' := by
        intro tn' pk'
        rw [hsm, rowAtStore_saveIndex, hs1, rowAtStore_saveIndex]
      -- keys this iteration did not touch
      have hsm_other : ∀ tn' cn' v', ¬(tn' = t.name ∧ cn' = col.name) →
          loadSet sm tn' cn' v' = loadSet s tn' cn' v' := by
        intro tn' cn' v' hno
        rw [hsm_set, if_neg (fun h => hno ⟨h.1, h.2.1⟩),
          if_neg (fun h => hno ⟨h.1, h.2.1⟩)]
      refine ⟨?_, ?_, ?_, ?_, ?_, ?_, ?_, ?_, ?_⟩
      · intro tn'
        rw [htab tn', htabm tn']
      · intro tn' pk'
        rw [hrowf tn' pk', hrowm' tn' pk']
      · intro tn' cn' v' hno
        rw [hm0 tn' cn' v' (by
            rintro ⟨rfl, ic', hic', hn⟩
            exact hno ⟨rfl, ic', List.mem_cons_of_mem _ hic', hn⟩),
          hsm_other tn' cn' v' (by
            rintro ⟨rfl, rfl⟩
            exact hno ⟨rfl, (i, col), List.mem_cons_self _ _, rfl⟩)]
      · intro x tn' cn' v' hx hno
        have hxm : x ∈ loadSet sm tn' cn' v' := by
          rw [hsm_set]
          by_cases h1 : tn' = t.name ∧ cn' = col.name ∧ v' = rowAt row i
          · rw [if_pos h1, mem_hsInsert]
            obtain ⟨he1, he2, he3⟩ := h1
            subst he1; subst he2; subst he3
            exact Or.inl hx
          · rw [if_neg h1]
            by_cases h2 : tn' = t.name ∧ cn' = col.name ∧ v' = rowAt row0 i
            · rw [if_pos h2, mem_hsRemove]
              obtain ⟨he1, he2, he3⟩ := h2
              subst he1; subst he2; subst he3
              refine ⟨hx, ?_⟩
              rintro rfl
              exact hno ⟨rfl, rfl, (i, col), List.mem_cons_self _ _, rfl, rfl, heq⟩
            · rw [if_neg h2]
              exact hx
        refine hm1 x tn' cn' v' hxm ?_
        rintro ⟨rfl, rfl, ic', hic', hprop⟩
        exact hno ⟨rfl, rfl, ic', List.mem_cons_of_mem _ hic', hprop⟩
      · intro x tn' cn' v' hx
        rcases hm2 x tn' cn' v' hx with h | ⟨rfl, rfl, ic', hic', hprop⟩
        · rw [hsm_set] at h
          by_cases h1 : tn' = t.name ∧ cn' = col.name ∧ v' = rowAt row i
          · rw [if_pos h1, mem_hsInsert] at h
            obtain ⟨he1, he2, he3⟩ := h1
            subst he1; subst he2; subst he3
            rcases h with h | rfl
            · exact Or.inl h
            · exact Or.inr ⟨rfl, rfl, (i, col), List.mem_cons_self _ _, rfl, rfl⟩
          · rw [if_neg h1] at h
            by_cases h2 : tn' = t.name ∧ cn' = col.name ∧ v' = rowAt row0 i
            · rw [if_pos h2, mem_hsRemove] at h
              obtain ⟨he1, he2, he3⟩ := h2
              subst he1; subst he2; subst he3
              exact Or.inl h.1
            · rw [if_neg h2] at h
              exact Or.inl h
        · exact Or.inr ⟨rfl, rfl, ic', List.mem_cons_of_mem _ hic', hprop⟩
      · intro ic' hic' hpre
        rcases List.mem_cons.mp hic' with rfl | hic''
        · -- head: pid was just inserted at the new-value key, and the rest
          -- of the loop touches only other column names
          have hin : pid ∈ loadSet sm t.name col.name (rowAt row i) := by
            rw [hsm_set, if_pos ⟨rfl, rfl, rfl⟩, mem_hsInsert]
            exact Or.inr rfl
          refine hm1 pid t.name col.name (rowAt row i) hin ?_
          rintro ⟨-, -, ic'', hic'', hn, -, -⟩
          exact hname_rest ic'' hic'' hn
        · refine hm3 ic' hic'' ?_
          intro hpre'
          rw [hsm_other t.name ic'.2.name (rowAt row ic'.1) (by
            rintro ⟨-, hn⟩
            exact hname_rest ic' hic'' hn)]
          exact hpre hpre'
      · intro ic' hic' hchg
        rcases List.mem_cons.mp hic' with rfl | hic''
        · -- head: pid was removed from the old-value key and cannot be
          -- re-added by iterations on other column names
          intro hin
          rcases hm2 pid t.name col.name (rowAt row0 i) hin with h | ⟨-, -, ic'', hic'', hn, -⟩
          · rw [hsm_set, if_neg (by rintro ⟨-, -, hv⟩; exact heq hv),
              if_pos ⟨rfl, rfl, rfl⟩, mem_hsRemove] at h
            exact h.2 rfl
          · exact hname_rest ic'' hic'' hn
        · exact hm4 ic' hic'' hchg
      · intro hp3s
        refine hp3 ?_
        intro tn' cn' v' hsome
        rw [hsm] at hsome ⊢
        rw [sget_index_saveIndex] at hsome
        rw [loadSet_saveIndex]
        by_cases h1 : tn' = t.name ∧ cn' = col.name ∧ v' = rowAt row i
        · rw [if_pos h1]
          exact hsInsert_ne_nil _ _
        · rw [if_neg h1] at hsome ⊢
          rw [hs1] at hsome ⊢
          rw [sget_index_saveIndex] at hsome
          rw [loadSet_saveIndex]
          by_cases h2 : tn' = t.name ∧ cn' = col.name ∧ v' = rowAt row0 i
          · rw [if_pos h2]
            rw [if_pos h2] at hsome
            cases hemp : (hsRemove pid st0).isEmpty
            · intro hnil
              rw [hnil] at hemp
              simp at hemp
            · rw [hemp] at hsome
              simp at hsome
          · rw [if_neg h2] at hsome ⊢
            exact hp3s tn' cn' v' hsome
      · intro hwfs
        refine hwf ?_
        rw [hsm, hs1]
        exact wf_saveIndex (wf_saveIndex hwfs _ _ _ _) _ _ _ _

/-- Helper: a successful `create_row` preserves the record-layer invariant
and store well-formedness. -/
theorem createRow_preserves (s : Store) (tn : String) (row : List Value)
    (s' : Store) (hwf : WfStore s) (hinv : Inv s = true)
    (hok : createRow s tn row = .ok () s') : Inv s' = true ∧ WfStore s' := by
  obtain ⟨hP1, hP2, hP3⟩ := inv_elim hwf hinv
  cases hm : mustGetTable s tn with
  | err e => simp [createRow, hm] at hok
  | panic => simp [createRow, hm] at hok
  | ok table =>
  cases hv : validateRowGo row 0 table.columns with
  | some e => simp [createRow, hm, hv] at hok
  | none =>
  cases hg : getPrimaryKey table row with
  | err e => simp [createRow, hm, hv, hg] at hok
  | panic => simp [createRow, hm, hv, hg] at hok
  | ok pk =>
  cases hdup : (sget s (Key.Row tn pk)).isSome with
  | true => simp [createRow, hm, hv, hg, hdup] at hok
  | false =>
  have hok' : createRowIndexes tn pk row (sput (Key.Row tn pk) (.row row) s)
      (indexColsOf table) = .ok () s' := by
    simpa [createRow, hm, hv, hg, hdup] using hok
  have htabS : tableAt s tn = some table := by
    unfold mustGetTable at hm
    cases hget : sget s (Key.Table tn) with
    | none => rw [hget] at hm; cases hm
    | some sv =>
      rw [hget] at hm
      cases sv with
      | table tb => cases hm; unfold tableAt; rw [hget]
      | row r => cases hm
      | indexSet st => cases hm
  have hdupn : sget s (Key.Row tn pk) = none := by
    cases h : sget s (Key.Row tn pk) with
    | none => rfl
    | some sv => rw [h] at hdup; cases hdup
  have hwf1 : WfStore (sput (Key.Row tn pk) (.row row) s) := wf_sput hwf rfl
  rcases createRowIndexes_trans tn pk row (indexColsOf table) _ s' hwf1.1 hok' with
    ⟨htabT, hrowT, hmemT, hp3T, hwfT⟩
  have htab1 : ∀ tn', tableAt (sput (Key.Row tn pk) (.row row) s) tn' = tableAt s tn' :=
    fun tn' => tableAt_sput _ tn' (by simp)
  have hload1 : ∀ tn' cn' v',
      loadSet (sput (Key.Row tn pk) (.row row) s) tn' cn' v' = loadSet s tn' cn' v' :=
    fun tn' cn' v' => loadSet_sput_row s tn pk row tn' cn' v'
  have hpk_not : ∀ cn v, pk ∉ loadSet s tn cn v := by
    intro cn v hmem
    rcases hP2 tn cn v pk hmem with ⟨r, tb, ic, hrowS, _, _⟩
    rw [rowAtStore_eq_some hrowS] at hdupn
    cases hdupn
  have hwf' : WfStore s' := hwfT hwf1
  refine ⟨inv_intro hwf' ?_ ?_ ?_, hwf'⟩
  · intro tn' pk' r' tb' hrow' htab'
    rw [htabT, htab1] at htab'
    rw [hrowT, rowAtStore_sput_row] at hrow'
    intro ic hic
    by_cases hsame : tn' = tn ∧ pk' = pk
    · rw [if_pos hsame] at hrow'
      obtain ⟨rfl, rfl⟩ := hsame
      obtain rfl : row = r' := by cases hrow'; rfl
      obtain rfl : table = tb' := by rw [htabS] at htab'; cases htab'; rfl
      rw [hmemT]
      exact Or.inr ⟨rfl, rfl, ic, hic, rfl, rfl⟩
    · rw [if_neg hsame] at hrow'
      rw [hmemT, hload1]
      exact Or.inl (hP1 tn' pk' r' tb' hrow' htab' ic hic)
  · intro tn' cn' v' x hx
    rw [hmemT] at hx
    rcases hx with hx | ⟨rfl, rfl, ic, hic, hn, hv'⟩
    · rw [hload1] at hx
      rcases hP2 tn' cn' v' x hx with ⟨r, tb, ic, hrowS, htabS', hic, hn, hv'⟩
      refine ⟨r, tb, ic, ?_, ?_, hic, hn, hv'⟩
      · rw [hrowT, rowAtStore_sput_row]
        rw [if_neg ?_]
        · exact hrowS
        · rintro ⟨rfl, rfl⟩
          rw [rowAtStore_eq_some hrowS] at hdupn
          cases hdupn
      · rw [htabT, htab1]
        exact htabS'
    · refine ⟨row, table, ic, ?_, ?_, hic, hn, hv'⟩
      · rw [hrowT, rowAtStore_sput_row, if_pos ⟨rfl, rfl⟩]
      · rw [htabT, htab1]
        exact htabS
  · refine hp3T ?_
    intro tn' cn' v' hsome
    rw [sget_index_sput_row] at hsome
    rw [hload1]
    exact hP3 tn' cn' v' hsome

/-- Helper: a successful `delete_row` (for the stored table) preserves the
record-layer invariant and store well-formedness. -/
theorem deleteRow_preserves (s : Store) (t : Table) (pid : Value) (s' : Store)
    (hwf : WfStore s) (hinv : Inv s = true) (htabS : tableAt s t.name = some t)
    (hok : deleteRow s t pid = .ok () s') : Inv s' = true ∧ WfStore s' := by
  obtain ⟨hP1, hP2, hP3⟩ := inv_elim hwf hinv
  cases hrow : rowAtStore s t.name pid with
  | none =>
    have hdix := deleteRowIndexes_none t pid (indexColsOf t) s hwf.1 hrow
    have hs' : s' = sdel (Key.Row t.name pid) s := by
      rw [deleteRow, hdix] at hok
      cases hok
      rfl
    subst hs'
    have hwf' : WfStore (sdel (Key.Row t.name pid) s) := wf_sdel hwf _
    refine ⟨inv_intro hwf' ?_ ?_ ?_, hwf'⟩
    · intro tn' pk' r' tb' hrow' htab'
      rw [rowAtStore_sdel_row] at hrow'
      rw [tableAt_sdel _ (by simp)] at htab'
      by_cases hsame : tn' = t.name ∧ pk' = pid
      · rw [if_pos hsame] at hrow'
        cases hrow'
      · rw [if_neg hsame] at hrow'
        intro ic hic
        rw [loadSet_sdel_row]
        exact hP1 tn' pk' r' tb' hrow' htab' ic hic
    · intro tn' cn' v' x hx
      rw [loadSet_sdel_row] at hx
      rcases hP2 tn' cn' v' x hx with ⟨r, tb, ic, hrowS, htabS', hic, hn, hv'⟩
      refine ⟨r, tb, ic, ?_, ?_, hic, hn, hv'⟩
      · rw [rowAtStore_sdel_row]
        rw [if_neg ?_]
        · exact hrowS
        · rintro ⟨rfl, rfl⟩
          rw [hrowS] at hrow
          cases hrow
      · rw [tableAt_sdel _ (by simp)]
        exact htabS'
    · intro tn' cn' v' hsome
      rw [sget_index_sdel_row] at hsome
      rw [loadSet_sdel_row]
      exact hP3 tn' cn' v' hsome
  | some row0 =>
    cases hdix : deleteRowIndexes t pid s (indexColsOf t) with
    | err e s2 => rw [deleteRow, hdix] at hok; cases hok
    | panic => rw [deleteRow, hdix] at hok; cases hok
    | ok u s2 =>
    have hs' : s' = sdel (Key.Row t.name pid) s2 := by
      rw [deleteRow, hdix] at hok
      cases hok
      rfl
    subst hs'
    rcases deleteRowIndexes_trans t pid row0 (indexColsOf t) s s2 hwf.1 hrow hdix with
      ⟨htabT, hrowT, hmemT, hp3T, hwfT⟩
    have hwf' : WfStore (sdel (Key.Row t.name pid) s2) := wf_sdel (hwfT hwf) _
    refine ⟨inv_intro hwf' ?_ ?_ ?_, hwf'⟩
    · intro tn' pk' r' tb' hrow' htab'
      rw [rowAtStore_sdel_row] at hrow'
      rw [tableAt_sdel _ (by simp), htabT] at htab'
      by_cases hsame : tn' = t.name ∧ pk' = pid
      · rw [if_pos hsame] at hrow'
        cases hrow'
      · rw [if_neg hsame] at hrow'
        rw [hrowT] at hrow'
        intro ic hic
        rw [loadSet_sdel_row, hmemT]
        refine ⟨hP1 tn' pk' r' tb' hrow' htab' ic hic, ?_⟩
        rintro ⟨rfl, rfl, -⟩
        exact hsame ⟨rfl, rfl⟩
    · intro tn' cn' v' x hx
      rw [loadSet_sdel_row, hmemT] at hx
      obtain ⟨hx, hno⟩ := hx
      rcases hP2 tn' cn' v' x hx with ⟨r, tb, ic, hrowS, htabS', hic, hn, hv'⟩
      refine ⟨r, tb, ic, ?_, ?_, hic, hn, hv'⟩
      · rw [rowAtStore_sdel_row]
        rw [if_neg ?_]
        · rw [hrowT]
          exact hrowS
        · rintro ⟨rfl, rfl⟩
          obtain rfl : row0 = r := by rw [hrowS] at hrow; cases hrow; rfl
          obtain rfl : t = tb := by rw [htabS'] at htabS; cases htabS; rfl
          exact hno ⟨rfl, rfl, ic, hic, hn, hv'⟩
      · rw [tableAt_sdel _ (by simp), htabT]
        exact htabS'
    · intro tn' cn' v' hsome
      rw [sget_index_sdel_row] at hsome
      rw [loadSet_sdel_row]
      exact hp3T hP3 tn' cn' v' hsome

/-- Helper: a successful `update_row` (stored table, distinct column names,
and either the old row is stored or the primary key changes) preserves the
record-layer invariant and store well-formedness. -/
theorem updateRow_preserves (s : Store) (t : Table) (pid : Value)
    (row : List Value) (s' : Store) (hwf : WfStore s) (hinv : Inv s = true)
    (htabS : tableAt s t.name = some t)
    (hnames : (t.columns.map (fun c => c.name)).Nodup)
    (hprov : (rowAtStore s t.name pid).isSome = true ∨ getPrimaryKey t row ≠ .ok pid)
    (hok : updateRow s t pid row = .ok () s') : Inv s' = true ∧ WfStore s' := by
  cases hg : getPrimaryKey t row with
  | err e => simp [updateRow, hg] at hok
  | panic => simp [updateRow, hg] at hok
  | ok newPk =>
  simp only [updateRow, hg] at hok
  by_cases hne : pid ≠ newPk
  · rw [if_pos hne] at hok
    cases hd : deleteRow s t pid with
    | err e sd => rw [hd] at hok; cases hok
    | panic => rw [hd] at hok; cases hok
    | ok u sd =>
      rw [hd] at hok
      obtain ⟨hinvd, hwfd⟩ := deleteRow_preserves s t pid sd hwf hinv htabS hd
      exact createRow_preserves sd t.name row s' hwfd hinvd hok
  · rw [if_neg hne] at hok
    push_neg at hne
    rw [← hne] at hok
    obtain ⟨hP1, hP2, hP3⟩ := inv_elim hwf hinv
    have hsome : (rowAtStore s t.name pid).isSome = true := by
      rcases hprov with h | h
      · exact h
      · rw [← hne] at hg
        exact absurd hg h
    rcases Option.isSome_iff_exists.mp hsome with ⟨row0, hrow0⟩
    cases hup : updateRowIndexes t pid row s (indexColsOf t) with
    | err e s2 => rw [hup] at hok; cases hok
    | panic => rw [hup] at hok; cases hok
    | ok u s2 =>
    rw [hup] at hok
    have hs' : s' = sput (Key.Row t.name pid) (.row row) s2 := by
      cases hok
      rfl
    subst hs'
    rcases updateRowIndexes_trans t pid row row0 (indexColsOf t) s s2 hwf.1 hrow0
        (indexColsOf_names_nodup t hnames) hup with
      ⟨htabT, hrowT, hm0, hm1, hm2, hm3, hm4, hp3T, hwfT⟩
    have hwf' : WfStore (sput (Key.Row t.name pid) (.row row) s2) :=
      wf_sput (hwfT hwf) rfl
    refine ⟨inv_intro hwf' ?_ ?_ ?_, hwf'⟩
    · intro tn' pk' r' tb' hrow' htab'
      rw [rowAtStore_sput_row] at hrow'
      rw [tableAt_sput _ _ (by simp), htabT] at htab'
      intro ic hic
      rw [loadSet_sput_row]
      by_cases hsame : tn' = t.name ∧ pk' = pid
      · rw [if_pos hsame] at hrow'
        obtain rfl : row = r' := by cases hrow'; rfl
        have htb' : tb' = t := by
          rw [hsame.1, htabS] at htab'
          cases htab'
          rfl
        rw [hsame.1, hsame.2]
        rw [htb'] at hic
        refine hm3 ic hic ?_
        intro heq
        rw [← heq]
        exact hP1 t.name pid row0 t hrow0 htabS ic hic
      · rw [if_neg hsame, hrowT] at hrow'
        refine hm1 pk' tn' ic.2.name (rowAt r' ic.1)
          (hP1 tn' pk' r' tb' hrow' htab' ic hic) ?_
        rintro ⟨rfl, rfl, -⟩
        exact hsame ⟨rfl, rfl⟩
    · intro tn' cn' v' x hx
      rw [loadSet_sput_row] at hx
      rcases hm2 x tn' cn' v' hx with hold | ⟨rfl, rfl, ic, hic, hn, hv'⟩
      · rcases hP2 tn' cn' v' x hold with ⟨r, tb, ic, hrowS, htabS', hic, hn, hv'⟩
        by_cases hsame : tn' = t.name ∧ x = pid
        · rw [hsame.1, hsame.2] at hrowS
          obtain rfl : row0 = r := by rw [hrowS] at hrow0; cases hrow0; rfl
          rw [hsame.1] at htabS'
          obtain rfl : t = tb := by rw [htabS'] at htabS; cases htabS; rfl
          by_cases hchg : rowAt row0 ic.1 = rowAt row ic.1
          · refine ⟨row, t, ic, ?_, ?_, hic, hn, by rw [← hchg]; exact hv'⟩
            · rw [rowAtStore_sput_row, if_pos hsame]
            · rw [tableAt_sput _ _ (by simp), htabT, hsame.1]
              exact htabS
          · exfalso
            have h4 := hm4 ic hic hchg
            rw [hn, hv'] at h4
            rw [hsame.1] at hx
            rw [hsame.2] at hx
            exact h4 hx
        · refine ⟨r, tb, ic, ?_, ?_, hic, hn, hv'⟩
          · rw [rowAtStore_sput_row, if_neg hsame, hrowT]
            exact hrowS
          · rw [tableAt_sput _ _ (by simp), htabT]
            exact htabS'
      · refine ⟨row, t, ic, ?_, ?_, hic, hn, hv'⟩
        · rw [rowAtStore_sput_row, if_pos ⟨rfl, rfl⟩]
        · rw [tableAt_sput _ _ (by simp), htabT]
          exact htabS
    · intro tn' cn' v' hsome
      rw [sget_index_sput_row] at hsome
      rw [loadSet_sput_row]
      exact hp3T hP3 tn' cn' v' hsome

/-- Claim C1 counterexample: from a state satisfying the invariant (a table
with an indexed column and no rows), a successful `update_row` call whose
primary key refers to no stored row writes the row without any index entry,
so the invariant is broken afterwards — the claim as stated (preservation by
every successful call) is false. -/
theorem update_row_breaks_invariant_counterexample :
    WfStore tIdxStore ∧ Inv tIdxStore = true ∧
    ∃ s', updateRow tIdxStore tIdxTable (.Integer 1) [.Integer 1, .String "x"] =
        .ok () s' ∧ Inv s' = false := by
  refine ⟨⟨by decide, by decide⟩, by decide, ?_⟩
  exact ⟨_, rfl, by decide⟩

/-- Claim C1 (amended): starting from a well-formed state satisfying the
secondary-index invariant, every successful `create_row` preserves it; every
successful `delete_row` on the stored table preserves it; and every
successful `update_row` on a stored table with distinct column names
preserves it provided the old primary key refers to a stored row or the
row's primary key differs from it (the counterexample shows the proviso is
necessary: updating a non-stored primary key without changing it creates an
unindexed row). -/
theorem record_layer_index_invariant (s : Store) (hwf : WfStore s)
    (hinv : Inv s = true) :
    (∀ tn row s', createRow s tn row = .ok () s' → Inv s' = true ∧ WfStore s') ∧
    (∀ t pid s', tableAt s t.name = some t →
      deleteRow s t pid = .ok () s' → Inv s' = true ∧ WfStore s') ∧
    (∀ t pid row s', tableAt s t.name = some t →
      (t.columns.map (fun c => c.name)).Nodup →
      ((rowAtStore s t.name pid).isSome = true ∨ getPrimaryKey t row ≠ .ok pid) →
      updateRow s t pid row = .ok () s' → Inv s' = true ∧ WfStore s') :=
  ⟨fun tn row s' hok => createRow_preserves s tn row s' hwf hinv hok,
   fun t pid s' htab hok => deleteRow_preserves s t pid s' hwf hinv htab hok,
   fun t pid row s' htab hnm hprov hok =>
     updateRow_preserves s t pid row s' hwf hinv htab hnm hprov hok⟩

/-- Claim C1 witness: on a concrete invariant-satisfying store (table, one
row, its index entry), an insert, a delete and an in-place update all
succeed, and the theorem certifies that the resulting stores satisfy the
invariant. -/
theorem record_layer_index_invariant_witness :
    (∃ s', createRow tIdxStore2 "t" [.Integer 2, .String "x"] = .ok () s' ∧
      Inv s' = true) ∧
    (∃ s', deleteRow tIdxStore2 tIdxTable (.Integer 1) = .ok () s' ∧
      Inv s' = true) ∧
    (∃ s', updateRow tIdxStore2 tIdxTable (.Integer 1) [.Integer 1, .String "z"] =
      .ok () s' ∧ Inv s' = true) := by
  have h := record_layer_index_invariant tIdxStore2 ⟨by decide, by decide⟩ (by decide)
  refine ⟨⟨_, rfl, ?_⟩, ⟨_, rfl, ?_⟩, ⟨_, rfl, ?_⟩⟩
  · exact (h.1 "t" [.Integer 2, .String "x"] _ rfl).1
  · exact (h.2.1 tIdxTable (.Integer 1) _ (by decide) rfl).1
  · exact (h.2.2 tIdxTable (.Integer 1) [.Integer 1, .String "z"] _ (by decide)
      (by decide) (Or.inl (by decide)) rfl).1

theorem dec32_be32 (n : Nat) (h : n < 2 ^ 32) : dec32L (be32 n) = n := by
  simp only [be32, dec32L]
  omega

theorem encRec_length (r : LogRec) : (encRec r).length = recSize r := by
  cases hv : r.value with
  | none => simp [encRec, encEntry, encValLen, be32, recSize, valLenOf, logHeaderSize, hv]
  | some v => simp [encRec, encEntry, encValLen, be32, recSize, valLenOf, logHeaderSize, hv]

theorem recSize_ge8 (r : LogRec) : 8 ≤ recSize r := by
  simp [recSize, logHeaderSize]

theorem encRec_shape (r : LogRec) :
    encRec r = be32 (r.key.length % 2 ^ 32) ++
      (encValLen r.value ++ (r.key ++ r.value.getD [])) := by
  simp [encRec, encEntry, List.append_assoc]

theorem encValLen_length (v : Option (List Nat)) : (encValLen v).length = 4 := by
  cases v <;> simp [encValLen, be32]

theorem buildKeydirGo_step (a c : List Nat) (r : LogRec) (fuel : Nat) (kd : KeyDir)
    (hwf : recWf r) :
    buildKeydirGo (a ++ (encRec r ++ c)) (fuel + 1) a.length kd =
      buildKeydirGo (a ++ (encRec r ++ c)) fuel (a.length + recSize r)
        (applyRecKd a.length r kd) := by
  have hkl : r.key.length % 2 ^ 32 = r.key.length :=
    Nat.mod_eq_of_lt (lt_trans hwf.1 (by norm_num))
  have hfl : (a ++ (encRec r ++ c)).length = a.length + (recSize r + c.length) := by
    simp [encRec_length]
  have hge8 := recSize_ge8 r
  -- slices
  have hshape : a ++ (encRec r ++ c) =
      ((a ++ be32 (r.key.length % 2 ^ 32)) ++ encValLen r.value) ++
        (r.key ++ (r.value.getD [] ++ c)) := by
    rw [encRec_shape]; simp [List.append_assoc]
  have hs1 : ((a ++ (encRec r ++ c)).drop a.length).take 4 =
      be32 (r.key.length % 2 ^ 32) := by
    rw [List.drop_left]
    rw [encRec_shape, List.append_assoc]
    exact List.take_left' (by simp [be32])
  have hs2 : ((a ++ (encRec r ++ c)).drop (a.length + 4)).take 4 =
      encValLen r.value := by
    rw [hshape, List.append_assoc, List.drop_left' (by simp [be32])]
    exact List.take_left' (encValLen_length r.value)
  have hs3 : ((a ++ (encRec r ++ c)).drop (a.length + 8)).take r.key.length =
      r.key := by
    rw [hshape, List.drop_left' (by simp [be32, encValLen_length])]
    exact List.take_left' rfl
  rw [buildKeydirGo]
  rw [if_neg (by omega), if_neg (by omega)]
  simp only [hs1, hs2]
  rw [dec32_be32 _ (by omega), hkl]
  rw [if_neg (by simp [recSize, logHeaderSize] at hfl ⊢; omega)]
  simp only [hs3]
  cases hv : r.value with
  | none =>
    simp only [hv, encValLen]
    rw [dec32_be32 _ (by norm_num)]
    rw [if_pos rfl]
    have hoff : a.length + r.key.length + logHeaderSize = a.length + recSize r := by
      simp [recSize, valLenOf, hv, logHeaderSize]; omega
    rw [hoff]
    simp only [applyRecKd, hv]
  | some v =>
    have hvl : v.length % 2 ^ 32 = v.length :=
      Nat.mod_eq_of_lt (lt_trans (hwf.2 v hv) (by norm_num))
    simp only [hv, encValLen]
    rw [dec32_be32 _ (by omega), hvl]
    rw [if_neg (by have := hwf.2 v hv; omega)]
    have hoff : a.length + r.key.length + v.length + logHeaderSize =
        a.length + recSize r := by
      simp [recSize, valLenOf, hv, logHeaderSize]; omega
    rw [hoff]
    simp only [applyRecKd, hv]

theorem buildKeydirGo_chain (recs : List LogRec) :
    ∀ (a : List Nat) (kd : KeyDir) (fuel : Nat),
      (∀ r ∈ recs, recWf r) → recs.length + 1 ≤ fuel →
      buildKeydirGo (a ++ encRecs recs) fuel a.length kd =
        .ok (applyRecsKd a.length kd recs) := by
  induction recs with
  | nil =>
    intro a kd fuel _ hfuel
    obtain ⟨f, rfl⟩ : ∃ f, fuel = f + 1 := ⟨fuel - 1, by omega⟩
    rw [buildKeydirGo]
    rw [if_pos (by simp [encRecs])]
    rfl
  | cons r rest ih =>
    intro a kd fuel hwf hfuel
    obtain ⟨f, rfl⟩ : ∃ f, fuel = f + 1 := ⟨fuel - 1, by omega⟩
    rw [show encRecs (r :: rest) = encRec r ++ encRecs rest from rfl]
    rw [buildKeydirGo_step a (encRecs rest) r f kd (hwf r (by simp))]
    rw [show applyRecsKd a.length kd (r :: rest) =
      applyRecsKd (a.length + recSize r) (applyRecKd a.length r kd) rest from rfl]
    rw [← List.append_assoc]
    have h2 : a.length + recSize r = (a ++ encRec r).length := by
      simp [encRec_length]
    rw [h2]
    exact ih (a ++ encRec r) (applyRecKd a.length r kd) f
      (fun r' hr' => hwf r' (by simp [hr'])) (by simp at hfuel ⊢; omega)

theorem encRecs_length_ge (recs : List LogRec) :
    recs.length ≤ (encRecs recs).length := by
  induction recs with
  | nil => simp [encRecs]
  | cons r t ih =>
    have := recSize_ge8 r
    simp only [encRecs, List.length_append, List.length_cons, encRec_length]
    omega

theorem applyOp_file (s : DiskState) (op : DiskOp) :
    (applyOp s op).file = s.file ++ encRec (recOfOp op) := by
  cases op <;> rfl

theorem applyOp_keydir (s : DiskState) (op : DiskOp) :
    (applyOp s op).keydir = applyRecKd s.file.length (recOfOp op) s.keydir := by
  cases op with
  | del k => rfl
  | set k v =>
    show kdInsert k
        (s.file.length + (k.length + valLenOf (some v) + logHeaderSize) - v.length,
          v.length) s.keydir = _
    have : s.file.length + (k.length + valLenOf (some v) + logHeaderSize) - v.length =
        s.file.length + logHeaderSize + k.length := by
      simp [valLenOf, logHeaderSize]; omega
    rw [this]
    rfl

theorem applyOps_file (ops : List DiskOp) :
    ∀ s, (applyOps s ops).file = s.file ++ encRecs (ops.map recOfOp) := by
  induction ops with
  | nil => intro s; simp [applyOps, encRecs]
  | cons op t ih =>
    intro s
    show (applyOps (applyOp s op) t).file = _
    rw [ih, applyOp_file]
    simp [encRecs, List.append_assoc]

theorem applyOps_keydir (ops : List DiskOp) :
    ∀ s, (applyOps s ops).keydir =
      applyRecsKd s.file.length s.keydir (ops.map recOfOp) := by
  induction ops with
  | nil => intro s; rfl
  | cons op t ih =>
    intro s
    show (applyOps (applyOp s op) t).keydir = _
    rw [ih, applyOp_keydir, applyOp_file]
    rw [show (s.file ++ encRec (recOfOp op)).length = s.file.length + recSize (recOfOp op)
      from by simp [encRec_length]]
    rfl

theorem recWf_of_opWf (op : DiskOp) (h : opWf op) : recWf (recOfOp op) := by
  cases op with
  | set k v => exact ⟨h.1, fun v' hv' => by simp [recOfOp] at hv'; exact hv' ▸ h.2⟩
  | del k => exact ⟨h, fun v' hv' => by simp [recOfOp] at hv'⟩

/-- Claim C2: the KeyDir is derived state.  For every sequence of `set` and
`delete` operations on a DiskEngine starting from an empty log file (with
keys and values that fit the u32/i32 header fields), walking the resulting
file from offset 0 to EOF as `build_keydir` does — inserting
`key -> (offset_of_value, val_len)` for a write record and removing the key
for a tombstone — succeeds and yields exactly the engine's in-memory
KeyDir. -/
theorem keydir_is_derived_state (ops : List DiskOp)
    (hwf : ∀ op ∈ ops, opWf op) :
    buildKeydir (applyOps emptyDisk ops).file =
      .ok (applyOps emptyDisk ops).keydir := by
  have hfile : (applyOps emptyDisk ops).file = [] ++ encRecs (ops.map recOfOp) := by
    rw [applyOps_file]; rfl
  have hkd : (applyOps emptyDisk ops).keydir =
      applyRecsKd ([] : List Nat).length [] (ops.map recOfOp) := by
    rw [applyOps_keydir]; rfl
  rw [buildKeydir, hfile, hkd]
  refine buildKeydirGo_chain (ops.map recOfOp) [] [] _ ?_ ?_
  · intro r hr
    simp only [List.mem_map] at hr
    obtain ⟨op, hop, rfl⟩ := hr
    exact recWf_of_opWf op (hwf op hop)
  · have := encRecs_length_ge (ops.map recOfOp)
    simp at this ⊢
    omega

theorem keydir_is_derived_state_witness :
    (∀ op ∈ ([.set [1] [7, 7], .set [0] [5], .del [1]] : List DiskOp), opWf op) ∧
    buildKeydir (applyOps emptyDisk [.set [1] [7, 7], .set [0] [5], .del [1]]).file =
      .ok (applyOps emptyDisk [.set [1] [7, 7], .set [0] [5], .del [1]]).keydir := by
  have hops : ∀ op ∈ ([.set [1] [7, 7], .set [0] [5], .del [1]] : List DiskOp), opWf op := by
    intro op hop
    simp only [List.mem_cons, List.not_mem_nil, or_false] at hop
    rcases hop with rfl | rfl | rfl
    · exact ⟨by norm_num, by norm_num⟩
    · exact ⟨by norm_num, by norm_num⟩
    · exact (by norm_num : (1 : Nat) < 2 ^ 31)
  exact ⟨hops, keydir_is_derived_state _ hops⟩

theorem bytesLt_irrefl (a : List Nat) : bytesLt a a = false := by
  induction a with
  | nil => rfl
  | cons x xs ih => simp [bytesLt, ih]

theorem bytesLt_trans :
    ∀ a b c : List Nat, bytesLt a b = true → bytesLt b c = true →
      bytesLt a c = true := by
  intro a
  induction a with
  | nil =>
    intro b c hab hbc
    cases b with
    | nil => exact hbc
    | cons y ys =>
      cases c with
      | nil => simp [bytesLt] at hbc
      | cons z zs => rfl
  | cons x xs ih =>
    intro b c hab hbc
    cases b with
    | nil => simp [bytesLt] at hab
    | cons y ys =>
      cases c with
      | nil => simp [bytesLt] at hbc
      | cons z zs =>
        simp only [bytesLt] at hab hbc ⊢
        by_cases hxy : x < y
        · by_cases hyz : y < z
          · rw [if_pos (by omega)]
          · rw [if_neg hyz] at hbc
            by_cases hzy : z < y
            · simp [hzy] at hbc
            · rw [if_pos (by omega)]
        · rw [if_neg hxy] at hab
          by_cases hyx : y < x
          · simp [hyx] at hab
          · rw [if_neg hyx] at hab
            by_cases hyz : y < z
            · rw [if_pos (by omega)]
            · rw [if_neg hyz] at hbc
              by_cases hzy : z < y
              · simp [hzy] at hbc
              · rw [if_neg hzy] at hbc
                rw [if_neg (by omega), if_neg (by omega)]
                exact ih ys zs hab hbc

theorem bytesLt_asymm :
    ∀ a b : List Nat, bytesLt a b = true → bytesLt b a = false := by
  intro a
  induction a with
  | nil =>
    intro b hab
    cases b with
    | nil => rfl
    | cons y ys => rfl
  | cons x xs ih =>
    intro b hab
    cases b with
    | nil => simp [bytesLt] at hab
    | cons y ys =>
      simp only [bytesLt] at hab ⊢
      by_cases hxy : x < y
      · rw [if_neg (by omega), if_pos hxy]
      · rw [if_neg hxy] at hab
        by_cases hyx : y < x
        · simp [hyx] at hab
        · rw [if_neg hyx] at hab
          rw [if_neg hyx, if_neg hxy]
          exact ih ys hab

theorem bytesLt_conn :
    ∀ a b : List Nat, bytesLt a b = false → bytesLt b a = false → a = b := by
  intro a
  induction a with
  | nil =>
    intro b hab _
    cases b with
    | nil => rfl
    | cons y ys => simp [bytesLt] at hab
  | cons x xs ih =>
    intro b hab hba
    cases b with
    | nil => simp [bytesLt] at hba
    | cons y ys =>
      simp only [bytesLt] at hab hba
      by_cases hxy : x < y
      · simp [hxy] at hab
      · rw [if_neg hxy] at hab
        by_cases hyx : y < x
        · simp [hyx] at hba
        · rw [if_neg hyx] at hab
          rw [if_neg hyx, if_neg hxy] at hba
          have : x = y := by omega
          rw [this, ih ys hab hba]

theorem mem_kdInsert (x : List Nat × Nat × Nat) (k : List Nat) (e : Nat × Nat) :
    ∀ kd : KeyDir, x ∈ kdInsert k e kd → x = (k, e) ∨ x ∈ kd := by
  intro kd
  induction kd with
  | nil => intro h; simp [kdInsert] at h; exact Or.inl h
  | cons p t ih =>
    intro h
    obtain ⟨k', e'⟩ := p
    simp only [kdInsert] at h
    by_cases h1 : bytesLt k k' = true
    · rw [if_pos h1] at h
      simp only [List.mem_cons] at h
      rcases h with rfl | h
      · exact Or.inl rfl
      · exact Or.inr (by simp [h])
    · rw [if_neg h1] at h
      by_cases h2 : k = k'
      · rw [if_pos h2] at h
        simp only [List.mem_cons] at h
        rcases h with rfl | h
        · exact Or.inl rfl
        · exact Or.inr (by simp [h])
      · rw [if_neg h2] at h
        simp only [List.mem_cons] at h
        rcases h with rfl | h
        · exact Or.inr (by simp)
        · rcases ih h with h' | h'
          · exact Or.inl h'
          · exact Or.inr (by simp [h'])

theorem kdInsert_sorted (k : List Nat) (e : Nat × Nat) :
    ∀ kd : KeyDir, kd.Pairwise (fun a b => bytesLt a.1 b.1 = true) →
      (kdInsert k e kd).Pairwise (fun a b => bytesLt a.1 b.1 = true) := by
  intro kd
  induction kd with
  | nil => intro _; simp [kdInsert]
  | cons p t ih =>
    intro hp
    obtain ⟨k', e'⟩ := p
    rw [List.pairwise_cons] at hp
    simp only [kdInsert]
    by_cases h1 : bytesLt k k' = true
    · rw [if_pos h1]
      rw [List.pairwise_cons]
      refine ⟨?_, List.pairwise_cons.mpr hp⟩
      intro x hx
      simp only [List.mem_cons] at hx
      rcases hx with rfl | hx
      · exact h1
      · exact bytesLt_trans _ _ _ h1 (hp.1 x hx)
    · rw [if_neg h1]
      by_cases h2 : k = k'
      · rw [if_pos h2]
        rw [List.pairwise_cons]
        exact ⟨fun x hx => h2 ▸ hp.1 x hx, hp.2⟩
      · rw [if_neg h2]
        rw [List.pairwise_cons]
        refine ⟨?_, ih hp.2⟩
        intro x hx
        rcases mem_kdInsert x k e t hx with rfl | hx
        · have h1' : bytesLt k k' = false := by simpa using h1
          by_cases h4 : bytesLt k' k = true
          · exact h4
          · have h4' : bytesLt k' k = false := by simpa using h4
            exact absurd (bytesLt_conn k' k h4' h1') (fun hh => h2 hh.symm)
        · exact hp.1 x hx

theorem kdInsert_append_gt (k : List Nat) (e : Nat × Nat) :
    ∀ kd : KeyDir, (∀ x ∈ kd, bytesLt x.1 k = true) →
      kdInsert k e kd = kd ++ [(k, e)] := by
  intro kd
  induction kd with
  | nil => intro _; rfl
  | cons p t ih =>
    intro h
    obtain ⟨k', e'⟩ := p
    have hk'k : bytesLt k' k = true := h (k', e') (by simp)
    simp only [kdInsert]
    rw [if_neg (by simp [bytesLt_asymm k' k hk'k])]
    rw [if_neg (by rintro rfl; simp [bytesLt_irrefl] at hk'k)]
    rw [ih (fun x hx => h x (by simp [hx]))]
    simp

theorem diskWf_empty : DiskWf emptyDisk := by
  constructor
  · simp [emptyDisk]
  · intro e he; simp [emptyDisk] at he

theorem diskWf_applyOp (s : DiskState) (op : DiskOp) (hwf : DiskWf s)
    (hop : opWf op) : DiskWf (applyOp s op) := by
  cases op with
  | set k v =>
    constructor
    · exact kdInsert_sorted k _ s.keydir hwf.1
    · intro e he
      have hfl : (applyOp s (.set k v)).file.length =
          s.file.length + (k.length + v.length + 8) := by
        show (s.file ++ encEntry k (some v)).length = _
        have := encRec_length ⟨k, some v⟩
        simp only [encRec] at this
        simp [this, recSize, valLenOf, logHeaderSize]
      rcases mem_kdInsert e k _ s.keydir he with rfl | he'
      · refine ⟨?_, ?_, ?_⟩
        · show s.file.length + (k.length + valLenOf (some v) + logHeaderSize) -
            v.length + v.length ≤ _
          rw [hfl]; simp [valLenOf, logHeaderSize]; omega
        · exact hop.2
        · exact hop.1
      · obtain ⟨h1, h2, h3⟩ := hwf.2 e he'
        exact ⟨by rw [hfl]; omega, h2, h3⟩
  | del k =>
    constructor
    · exact List.Pairwise.filter _ hwf.1
    · intro e he
      have he' : e ∈ s.keydir := List.mem_of_mem_filter he
      obtain ⟨h1, h2, h3⟩ := hwf.2 e he'
      refine ⟨?_, h2, h3⟩
      show e.2.1 + e.2.2 ≤ (s.file ++ encEntry k none).length
      simp only [List.length_append]
      omega

theorem diskWf_applyOps (ops : List DiskOp) :
    ∀ s, DiskWf s → (∀ op ∈ ops, opWf op) → DiskWf (applyOps s ops) := by
  induction ops with
  | nil => intro s hs _; exact hs
  | cons op t ih =>
    intro s hs hops
    exact ih (applyOp s op) (diskWf_applyOp s op hs (hops op (by simp)))
      (fun op' hop' => hops op' (by simp [hop']))

theorem readValue_length (file : List Nat) (off len : Nat)
    (h : off + len ≤ file.length) : (readValue file off len).length = len := by
  simp [readValue]
  omega

theorem compactGo_spec (oldFile : List Nat) :
    ∀ (entries : KeyDir) (newFile : List Nat) (newKd : KeyDir),
      (∀ e ∈ entries, e.2.1 + e.2.2 ≤ oldFile.length) →
      compactGo oldFile newFile newKd entries =
        .ok (newFile ++
            encRecs (entries.map (fun e => ⟨e.1, some (readValue oldFile e.2.1 e.2.2)⟩)),
          applyRecsKd newFile.length newKd
            (entries.map (fun e => ⟨e.1, some (readValue oldFile e.2.1 e.2.2)⟩))) := by
  intro entries
  induction entries with
  | nil =>
    intro newFile newKd _
    simp [compactGo, encRecs, applyRecsKd]
  | cons p rest ih =>
    intro newFile newKd hrange
    obtain ⟨k, off, sz⟩ := p
    have hin : off + sz ≤ oldFile.length := hrange (k, off, sz) (by simp)
    rw [compactGo]
    rw [show readValueE oldFile off sz = .ok (readValue oldFile off sz) from by
      simp [readValueE, readValue, hin]]
    have hvl : (readValue oldFile off sz).length = sz := readValue_length _ _ _ hin
    dsimp only
    rw [ih _ _ (fun e he => hrange e (by simp [he]))]
    simp only [List.map_cons, encRecs, applyRecsKd]
    congr 2
    · simp [writeEntry, List.append_assoc, encRec]
    · show applyRecsKd (newFile ++ encEntry k (some (readValue oldFile off sz))).length
          (kdInsert k
            (newFile.length + (k.length + valLenOf (some (readValue oldFile off sz)) +
              logHeaderSize) - sz, sz) newKd) _ = _
      have h1 : (newFile ++ encEntry k (some (readValue oldFile off sz))).length =
          newFile.length + recSize ⟨k, some (readValue oldFile off sz)⟩ := by
        have := encRec_length ⟨k, some (readValue oldFile off sz)⟩
        simp only [encRec] at this
        simp [this]
      have h2 : newFile.length + (k.length + valLenOf (some (readValue oldFile off sz)) +
          logHeaderSize) - sz = newFile.length + logHeaderSize + k.length := by
        simp [valLenOf, hvl, logHeaderSize]; omega
      rw [h1, h2]
      rw [show applyRecKd newFile.length ⟨k, some (readValue oldFile off sz)⟩ newKd =
        kdInsert k (newFile.length + logHeaderSize + k.length,
          (readValue oldFile off sz).length) newKd from rfl]
      rw [hvl]

theorem applyRecsKd_cMapped (oldFile : List Nat) :
    ∀ (entries : KeyDir) (off : Nat) (kd : KeyDir),
      entries.Pairwise (fun a b => bytesLt a.1 b.1 = true) →
      (∀ e ∈ kd, ∀ e' ∈ entries, bytesLt e.1 e'.1 = true) →
      (∀ e ∈ entries, e.2.1 + e.2.2 ≤ oldFile.length) →
      applyRecsKd off kd
          (entries.map (fun e => ⟨e.1, some (readValue oldFile e.2.1 e.2.2)⟩)) =
        kd ++ cMapped off entries := by
  intro entries
  induction entries with
  | nil => intro off kd _ _ _; simp [applyRecsKd, cMapped]
  | cons p rest ih =>
    intro off kd hsort hall hrange
    obtain ⟨k, o, sz⟩ := p
    have hin : o + sz ≤ oldFile.length := hrange (k, o, sz) (by simp)
    have hvl : (readValue oldFile o sz).length = sz := readValue_length _ _ _ hin
    rw [List.pairwise_cons] at hsort
    simp only [List.map_cons, applyRecsKd]
    rw [show applyRecKd off ⟨k, some (readValue oldFile o sz)⟩ kd =
      kdInsert k (off + logHeaderSize + k.length, (readValue oldFile o sz).length) kd
      from rfl]
    rw [hvl]
    rw [kdInsert_append_gt k _ kd (fun x hx => hall x hx (k, o, sz) (by simp))]
    have hrs : recSize ⟨k, some (readValue oldFile o sz)⟩ =
        k.length + sz + logHeaderSize := by
      simp [recSize, valLenOf, hvl]
    rw [hrs]
    rw [ih (off + (k.length + sz + logHeaderSize)) (kd ++ [(k, (off + logHeaderSize + k.length, sz))])
      hsort.2 ?hall (fun e he => hrange e (by simp [he]))]
    · simp [cMapped]
    case hall =>
      intro e he e' he'
      simp only [List.mem_append, List.mem_singleton] at he
      rcases he with he | rfl
      · exact hall e he e' (by simp [he'])
      · exact hsort.1 e' he'

theorem readValue_at_rec (a c k v : List Nat) :
    readValue (a ++ (encEntry k (some v) ++ c)) (a.length + logHeaderSize + k.length)
      v.length = v := by
  have hshape : a ++ (encEntry k (some v) ++ c) =
      ((a ++ be32 (k.length % 2 ^ 32) ++ encValLen (some v)) ++ k) ++ (v ++ c) := by
    simp [encEntry, List.append_assoc]
  rw [readValue, hshape]
  rw [List.drop_left' (by simp [be32, encValLen_length, logHeaderSize]; omega)]
  exact List.take_left' rfl

theorem cMapped_reads (oldFile : List Nat) :
    ∀ (entries : KeyDir) (pre : List Nat),
      (∀ e ∈ entries, e.2.1 + e.2.2 ≤ oldFile.length) →
      (cMapped pre.length entries).map
          (fun e => (e.1,
            readValue
              (pre ++ encRecs (entries.map
                (fun e => ⟨e.1, some (readValue oldFile e.2.1 e.2.2)⟩)))
              e.2.1 e.2.2)) =
        entries.map (fun e => (e.1, readValue oldFile e.2.1 e.2.2)) := by
  intro entries
  induction entries with
  | nil => intro pre _; simp [cMapped]
  | cons p rest ih =>
    intro pre hrange
    obtain ⟨k, o, sz⟩ := p
    have hin : o + sz ≤ oldFile.length := hrange (k, o, sz) (by simp)
    have hvl : (readValue oldFile o sz).length = sz := readValue_length _ _ _ hin
    simp only [List.map_cons, cMapped, encRecs, encRec]
    congr 1
    · -- the head entry reads back its own value
      congr 1
      have hh := readValue_at_rec pre
        (encRecs (rest.map
          (fun e => (⟨e.1, some (readValue oldFile e.2.1 e.2.2)⟩ : LogRec))))
        k (readValue oldFile o sz)
      rw [hvl] at hh
      exact hh
    · -- the rest: shift pre by the head record
      have hpre : pre.length + (k.length + sz + logHeaderSize) =
          (pre ++ encEntry k (some (readValue oldFile o sz))).length := by
        have := encRec_length ⟨k, some (readValue oldFile o sz)⟩
        simp only [encRec] at this
        simp [this, recSize, valLenOf, hvl]
      rw [hpre]
      rw [show pre ++ (encEntry k (some (readValue oldFile o sz)) ++
          encRecs (rest.map (fun e => ⟨e.1, some (readValue oldFile e.2.1 e.2.2)⟩))) =
        (pre ++ encEntry k (some (readValue oldFile o sz))) ++
          encRecs (rest.map (fun e => ⟨e.1, some (readValue oldFile e.2.1 e.2.2)⟩))
        from by simp [List.append_assoc]]
      exact ih (pre ++ encEntry k (some (readValue oldFile o sz)))
        (fun e he => hrange e (by simp [he]))

/-- Claim C3: compaction preserves observable state.  For any well-formed
DiskEngine state (KeyDir sorted, entries in range — true of every state the
engine reaches), `compact` succeeds, a full-range scan of the compacted
engine returns exactly the same (key, value) pairs in the same order as
before, and rebuilding the KeyDir from the compacted file as startup does
yields exactly the in-memory KeyDir swapped in at compaction time. -/
theorem compaction_preserves_observable_state (s : DiskState) (hwf : DiskWf s) :
    ∃ s', dsCompact s = .ok s' ∧
      scanAll s' = scanAll s ∧
      buildKeydir s'.file = .ok s'.keydir := by
  have hrange : ∀ e ∈ s.keydir, e.2.1 + e.2.2 ≤ s.file.length :=
    fun e he => (hwf.2 e he).1
  have hspec := compactGo_spec s.file s.keydir [] [] hrange
  set recs2 := s.keydir.map
    (fun e => (⟨e.1, some (readValue s.file e.2.1 e.2.2)⟩ : LogRec)) with hrecs2
  refine ⟨⟨[] ++ encRecs recs2, applyRecsKd ([] : List Nat).length [] recs2⟩, ?_, ?_, ?_⟩
  · rw [dsCompact, hspec]
  · -- scan equality
    have hkd2 : applyRecsKd ([] : List Nat).length ([] : KeyDir) recs2 =
        [] ++ cMapped ([] : List Nat).length s.keydir := by
      exact applyRecsKd_cMapped s.file s.keydir ([] : List Nat).length [] hwf.1
        (by intro e he; simp at he) hrange
    show (applyRecsKd ([] : List Nat).length [] recs2).map
        (fun e => (e.1, readValue ([] ++ encRecs recs2) e.2.1 e.2.2)) = _
    rw [hkd2]
    rw [List.nil_append]
    exact cMapped_reads s.file s.keydir [] hrange
  · -- keydir can be rebuilt from the compacted file
    show buildKeydir ([] ++ encRecs recs2) = _
    rw [buildKeydir]
    refine buildKeydirGo_chain recs2 [] [] _ ?_ ?_
    · intro r hr
      rw [hrecs2] at hr
      simp only [List.mem_map] at hr
      obtain ⟨e, he, rfl⟩ := hr
      obtain ⟨h1, h2, h3⟩ := hwf.2 e he
      refine ⟨h3, fun v hv => ?_⟩
      simp only at hv
      obtain rfl : readValue s.file e.2.1 e.2.2 = v := by
        injection hv
      rw [readValue_length _ _ _ h1]
      exact h2
    · have := encRecs_length_ge recs2
      rw [hrecs2] at this ⊢
      simp at this ⊢
      omega

theorem compaction_preserves_observable_state_witness :
    DiskWf (applyOps emptyDisk [.set [1] [7, 7], .set [0] [5], .del [1]]) ∧
    ∃ s', dsCompact (applyOps emptyDisk [.set [1] [7, 7], .set [0] [5], .del [1]]) =
        .ok s' ∧
      scanAll s' = scanAll (applyOps emptyDisk [.set [1] [7, 7], .set [0] [5], .del [1]]) ∧
      buildKeydir s'.file = .ok s'.keydir :=
  ⟨⟨by decide, by decide⟩,
    compaction_preserves_observable_state _ ⟨by decide, by decide⟩⟩

end SqlDB
